import Mathlib

/-!
Verification of the collaborative session and state synchronization hub of
the grounded-theory backend (src/backend/main.py).

The development shallowly embeds the Python code: JSON payloads become the
inductive `JVal`, Python dicts become insertion-ordered association lists,
wall-clock milliseconds become explicit `Int` parameters, the Firestore
backing store becomes explicit inputs (load results, write-success flags),
and the per-connection message handlers become pure state-transformer
functions.  All definitions are executable.
-/

set_option maxHeartbeats 1600000
set_option maxRecDepth 100000

namespace GTApp

/-! ## Python string helpers -/

/-- Whitespace characters recognized by Python's `str.strip` (ASCII range). -/
def pyWs (c : Char) : Bool :=
  c = ' ' || c = '\t' || c = '\n' || c = '\r' || c = Char.ofNat 11 || c = Char.ofNat 12

/-- Python `str.strip()` restricted to ASCII whitespace. -/
def pyStrip (s : String) : String :=
  String.mk (((s.toList.dropWhile pyWs).reverse.dropWhile pyWs).reverse)

/-- True when `s.strip()` is empty, i.e. `s` is blank. -/
def pyBlank (s : String) : Bool :=
  s.toList.all pyWs

/-! ## Decimal rendering of naturals (Python `str(int)` / f-string of an int) -/

/-- Digits of `n` in base 10, least significant first, with explicit fuel so
that the definition reduces inside the kernel (`natDigitsRevF n n` never
exhausts the fuel). -/
def natDigitsRevF : Nat → Nat → List Nat
  | 0, n => [n]
  | fuel + 1, n => if n < 10 then [n] else (n % 10) :: natDigitsRevF fuel (n / 10)

/-- Digits of `n` in base 10, least significant first. -/
def natDigitsRev (n : Nat) : List Nat := natDigitsRevF n n

/-- Value of a least-significant-first digit list. -/
def ofDigitsRev : List Nat → Nat
  | [] => 0
  | d :: ds => d + 10 * ofDigitsRev ds

theorem natDigitsRevF_of_le {fuel fuel2 n : Nat} (hn : n ≤ fuel) (hn2 : n ≤ fuel2) :
    natDigitsRevF fuel n = natDigitsRevF fuel2 n := by
  induction fuel generalizing fuel2 n with
  | zero =>
    have : n = 0 := by omega
    cases fuel2 with
    | zero => rfl
    | succ f2 => simp [natDigitsRevF, this]
  | succ f ih =>
    cases fuel2 with
    | zero =>
      have : n = 0 := by omega
      simp [natDigitsRevF, this]
    | succ f2 =>
      simp only [natDigitsRevF]
      by_cases h : n < 10
      · rw [if_pos h, if_pos h]
      · rw [if_neg h, if_neg h]
        have hdiv : n / 10 ≤ f := by
          have := Nat.div_lt_self (by omega : 0 < n) (by omega : 1 < 10)
          omega
        have hdiv2 : n / 10 ≤ f2 := by
          have := Nat.div_lt_self (by omega : 0 < n) (by omega : 1 < 10)
          omega
        rw [ih hdiv hdiv2]

theorem natDigitsRev_step (n : Nat) :
    natDigitsRev n = if n < 10 then [n] else (n % 10) :: natDigitsRev (n / 10) := by
  unfold natDigitsRev
  by_cases h : n < 10
  · rw [if_pos h]
    cases hn : n with
    | zero => rfl
    | succ m => simp [natDigitsRevF, hn ▸ h]
  · rw [if_neg h]
    have hpos : n ≠ 0 := by omega
    cases hn : n with
    | zero => exact absurd hn hpos
    | succ m =>
      simp only [natDigitsRevF, hn ▸ h, if_false]
      subst hn
      have hdiv : (m + 1) / 10 ≤ m := by
        have := Nat.div_lt_self (by omega : 0 < m + 1) (by omega : 1 < 10)
        omega
      rw [natDigitsRevF_of_le hdiv (Nat.le_refl _)]

theorem ofDigitsRev_natDigitsRev (n : Nat) : ofDigitsRev (natDigitsRev n) = n := by
  induction n using Nat.strong_induction_on with
  | _ n ih =>
    rw [natDigitsRev_step]
    by_cases h : n < 10
    · simp [h, ofDigitsRev]
    · simp only [h, if_false, ofDigitsRev]
      rw [ih (n / 10) (Nat.div_lt_self (by omega) (by omega))]
      omega

theorem natDigitsRev_lt (n : Nat) : ∀ d ∈ natDigitsRev n, d < 10 := by
  induction n using Nat.strong_induction_on with
  | _ n ih =>
    rw [natDigitsRev_step]
    by_cases h : n < 10
    · rw [if_pos h]
      intro d hd
      simp only [List.mem_singleton] at hd
      omega
    · rw [if_neg h]
      intro d hd
      rcases List.mem_cons.mp hd with h1 | h2
      · subst h1; exact Nat.mod_lt _ (by omega)
      · exact ih (n / 10) (Nat.div_lt_self (by omega) (by omega)) d h2

/-- Character for a single decimal digit. -/
def digitChar (d : Nat) : Char := Char.ofNat (48 + d)

/-- Decimal rendering of a natural number. -/
def natRepr (n : Nat) : String :=
  String.mk ((natDigitsRev n).reverse.map digitChar)

/-- Decimal rendering of a Python integer (possibly negative). -/
def intRepr (i : Int) : String :=
  if i < 0 then "-" ++ natRepr i.natAbs else natRepr i.natAbs

theorem digitChar_inj {a b : Nat} (ha : a < 10) (hb : b < 10) :
    digitChar a = digitChar b → a = b := by
  interval_cases a <;> interval_cases b <;> decide

theorem map_digitChar_inj : ∀ (xs ys : List Nat), (∀ d ∈ xs, d < 10) → (∀ d ∈ ys, d < 10) →
    xs.map digitChar = ys.map digitChar → xs = ys := by
  intro xs
  induction xs with
  | nil => intro ys _ _ h; cases ys <;> simp_all
  | cons x xs ih =>
    intro ys hx hy h
    cases ys with
    | nil => simp_all
    | cons y ys =>
      simp only [List.map_cons, List.cons.injEq] at h
      have hxy : x = y :=
        digitChar_inj (hx x (by simp)) (hy y (by simp)) h.1
      have : xs = ys :=
        ih ys (fun d hd => hx d (by simp [hd])) (fun d hd => hy d (by simp [hd])) h.2
      simp [hxy, this]

theorem natRepr_inj {a b : Nat} (h : natRepr a = natRepr b) : a = b := by
  have hdig : (natDigitsRev a).reverse.map digitChar = (natDigitsRev b).reverse.map digitChar := by
    have := congrArg String.toList h
    simpa [natRepr] using this
  have hrev : (natDigitsRev a).map digitChar = (natDigitsRev b).map digitChar := by
    have := congrArg List.reverse hdig
    simpa [List.map_reverse] using this
  have hds : natDigitsRev a = natDigitsRev b :=
    map_digitChar_inj _ _ (natDigitsRev_lt a) (natDigitsRev_lt b) hrev
  calc a = ofDigitsRev (natDigitsRev a) := (ofDigitsRev_natDigitsRev a).symm
    _ = ofDigitsRev (natDigitsRev b) := by rw [hds]
    _ = b := ofDigitsRev_natDigitsRev b

/-! ## JSON values (Python JSON-like payloads) -/

/-- JSON-like values as handled by the backend: Python `None`, booleans,
(arbitrary-precision) integers, strings, lists and insertion-ordered dicts. -/
inductive JVal where
  | null
  | bool (b : Bool)
  | int (n : Int)
  | str (s : String)
  | arr (xs : List JVal)
  | obj (fields : List (String × JVal))
deriving Repr

/-- A JSON object body: an insertion-ordered dict with string keys. -/
abbrev JObj := List (String × JVal)

mutual
def JVal.beq : JVal → JVal → Bool
  | .null, .null => true
  | .bool a, .bool b => a = b
  | .int a, .int b => a = b
  | .str a, .str b => a = b
  | .arr a, .arr b => JVal.beqList a b
  | .obj a, .obj b => JVal.beqFields a b
  | _, _ => false
def JVal.beqList : List JVal → List JVal → Bool
  | [], [] => true
  | a :: as, b :: bs => JVal.beq a b && JVal.beqList as bs
  | _, _ => false
def JVal.beqFields : List (String × JVal) → List (String × JVal) → Bool
  | [], [] => true
  | (k1, v1) :: as, (k2, v2) :: bs => k1 = k2 && JVal.beq v1 v2 && JVal.beqFields as bs
  | _, _ => false
end

mutual
theorem JVal.beq_iff : ∀ a b : JVal, JVal.beq a b = true ↔ a = b
  | .null, b => by cases b <;> simp [JVal.beq]
  | .bool x, b => by cases b <;> simp [JVal.beq]
  | .int x, b => by cases b <;> simp [JVal.beq]
  | .str x, b => by cases b <;> simp [JVal.beq]
  | .arr xs, b => by
      cases b <;> simp [JVal.beq]
      exact JVal.beqList_iff xs _
  | .obj fs, b => by
      cases b <;> simp [JVal.beq]
      exact JVal.beqFields_iff fs _
theorem JVal.beqList_iff : ∀ a b : List JVal, JVal.beqList a b = true ↔ a = b
  | [], b => by cases b <;> simp [JVal.beqList]
  | x :: xs, b => by
      cases b with
      | nil => simp [JVal.beqList]
      | cons y ys =>
        simp only [JVal.beqList, Bool.and_eq_true, List.cons.injEq]
        rw [JVal.beq_iff, JVal.beqList_iff]
theorem JVal.beqFields_iff : ∀ a b : List (String × JVal), JVal.beqFields a b = true ↔ a = b
  | [], b => by cases b <;> simp [JVal.beqFields]
  | (k, v) :: xs, b => by
      cases b with
      | nil => simp [JVal.beqFields]
      | cons y ys =>
        cases y with
        | mk k2 v2 =>
          simp only [JVal.beqFields, Bool.and_eq_true, List.cons.injEq, Prod.mk.injEq,
            decide_eq_true_eq]
          rw [JVal.beq_iff, JVal.beqFields_iff]
end

instance : DecidableEq JVal := fun a b =>
  decidable_of_iff (JVal.beq a b = true) (JVal.beq_iff a b)

/-! ## Python dict operations (insertion-ordered association lists) -/

/-- Python dict lookup `d.get(k)` restricted to present keys. -/
def dlookup {K V : Type} [DecidableEq K] (k : K) : List (K × V) → Option V
  | [] => none
  | (k2, v) :: rest => if k2 = k then some v else dlookup k rest

/-- Python `k in d`. -/
def dhasKey {K V : Type} [DecidableEq K] (k : K) (l : List (K × V)) : Bool :=
  (dlookup k l).isSome

/-- Python dict assignment `d[k] = v`: updates the entry in place when the key
exists, otherwise appends the new binding (insertion order preserved). -/
def dset {K V : Type} [DecidableEq K] (k : K) (v : V) (l : List (K × V)) : List (K × V) :=
  if dhasKey k l then l.map (fun p => if p.1 = k then (k, v) else p) else l ++ [(k, v)]

/-- Python `d.pop(k, None)`: removes the binding for `k` when present. -/
def dremove {K V : Type} [DecidableEq K] (k : K) : List (K × V) → List (K × V)
  | [] => []
  | p :: rest => if p.1 = k then dremove k rest else p :: dremove k rest

/-- Keys of a dict. -/
def dkeys {K V : Type} (l : List (K × V)) : List K := l.map Prod.fst

/-- Python truthiness of a JSON value (`bool(x)`). -/
def jTruthy : JVal → Bool
  | .null => false
  | .bool b => b
  | .int n => n ≠ 0
  | .str s => s.length ≠ 0
  | .arr xs => !xs.isEmpty
  | .obj fs => !fs.isEmpty

/-- Python `d.get(k, default)` on a JSON object value: the default is used only
when the key is missing (a stored `None` is returned as `null`). -/
def jgetD (o : JVal) (k : String) (d : JVal) : JVal :=
  match o with
  | .obj fs => (dlookup k fs).getD d
  | _ => d

/-- Python `d.get(k)` (missing keys yield `None`). -/
def jget0 (o : JVal) (k : String) : JVal := jgetD o k .null

/-- `d.get(k)` on raw object fields. -/
def fget (fs : JObj) (k : String) : JVal := (dlookup k fs).getD .null

/-! ## Canonical JSON serialization (`json.dumps(..., sort_keys=True, separators=(",", ":"))`) -/

/-- Lowercase hexadecimal digit. -/
def hexChar (n : Nat) : Char :=
  if n < 10 then digitChar n else Char.ofNat (87 + n)

/-- Four lowercase hex digits (for the `\uXXXX` escapes `json.dumps` emits). -/
def hex4 (n : Nat) : String :=
  String.mk [hexChar (n / 4096 % 16), hexChar (n / 256 % 16), hexChar (n / 16 % 16), hexChar (n % 16)]

/-- Escape one character the way `json.dumps` (with the default
`ensure_ascii=True`) renders it inside a string literal. -/
def escChar (c : Char) : String :=
  let n := c.toNat
  if c = '"' then "\\\""
  else if c = '\\' then "\\\\"
  else if c = '\n' then "\\n"
  else if c = '\t' then "\\t"
  else if c = '\r' then "\\r"
  else if n = 8 then "\\b"
  else if n = 12 then "\\f"
  else if n < 32 then "\\u" ++ hex4 n
  else if n < 127 then String.singleton c
  else if n < 65536 then "\\u" ++ hex4 n
  else
    "\\u" ++ hex4 (55296 + (n - 65536) / 1024) ++ "\\u" ++ hex4 (56320 + (n - 65536) % 1024)

/-- A JSON string literal as `json.dumps` renders it. -/
def jsonQuote (s : String) : String :=
  "\"" ++ String.join (s.toList.map escChar) ++ "\""

/-- Code-point lexicographic order on character lists (Python string `<`). -/
def charListLt : List Char → List Char → Bool
  | [], [] => false
  | [], _ :: _ => true
  | _ :: _, [] => false
  | c :: cs, d :: ds =>
    if c.toNat < d.toNat then true
    else if d.toNat < c.toNat then false
    else charListLt cs ds

/-- Code-point lexicographic order on strings. -/
def strLt (a b : String) : Bool := charListLt a.toList b.toList

/-- Insert a field into a key-sorted field list (code-point order, as Python
string comparison). -/
def insertPair (p : String × JVal) : List (String × JVal) → List (String × JVal)
  | [] => [p]
  | q :: qs => if strLt p.1 q.1 then p :: q :: qs else q :: insertPair p qs

/-- Sort fields by key (`sort_keys=True`). -/
def sortPairs : List (String × JVal) → List (String × JVal)
  | [] => []
  | p :: ps => insertPair p (sortPairs ps)

mutual
/-- Recursively sort every object's fields by key. -/
def sortJ : JVal → JVal
  | .obj fs => .obj (sortPairs (sortJFields fs))
  | .arr xs => .arr (sortJList xs)
  | .null => .null
  | .bool b => .bool b
  | .int n => .int n
  | .str s => .str s
def sortJList : List JVal → List JVal
  | [] => []
  | x :: xs => sortJ x :: sortJList xs
def sortJFields : List (String × JVal) → List (String × JVal)
  | [] => []
  | (k, v) :: fs => (k, sortJ v) :: sortJFields fs
end

mutual
/-- Serialize an already key-sorted value with separators `(",", ":")`. -/
def dumpsSorted : JVal → String
  | .null => "null"
  | .bool true => "true"
  | .bool false => "false"
  | .int i => intRepr i
  | .str s => jsonQuote s
  | .arr xs => "[" ++ dumpsSortedList xs ++ "]"
  | .obj fs => "\x7b" ++ dumpsSortedFields fs ++ "\x7d"
def dumpsSortedList : List JVal → String
  | [] => ""
  | [x] => dumpsSorted x
  | x :: y :: rest => dumpsSorted x ++ "," ++ dumpsSortedList (y :: rest)
def dumpsSortedFields : List (String × JVal) → String
  | [] => ""
  | [(k, v)] => jsonQuote k ++ ":" ++ dumpsSorted v
  | (k, v) :: q :: rest => jsonQuote k ++ ":" ++ dumpsSorted v ++ "," ++ dumpsSortedFields (q :: rest)
end

/-- `json.dumps(v, sort_keys=True, separators=(",", ":"))`. -/
def jsonDumps (v : JVal) : String := dumpsSorted (sortJ v)

/-- UTF-8 encoding of one character, as byte values. -/
def utf8Char (c : Char) : List Nat :=
  let n := c.toNat
  if n < 128 then [n]
  else if n < 2048 then [192 + n / 64, 128 + n % 64]
  else if n < 65536 then [224 + n / 4096, 128 + n / 64 % 64, 128 + n % 64]
  else [240 + n / 262144, 128 + n / 4096 % 64, 128 + n / 64 % 64, 128 + n % 64]

/-- UTF-8 encoding of a string, as byte values. -/
def utf8Bytes (s : String) : List Nat :=
  (s.toList.map utf8Char).flatten

/-! ## SHA-256 (hashlib.sha256(...).hexdigest()) -/

/-- Truncate to a 32-bit word. -/
def w32 (n : Nat) : Nat := n % 4294967296

/-- Right rotation of a 32-bit word. -/
def rotr (k n : Nat) : Nat := w32 ((n >>> k) ||| (n <<< (32 - k)))

/-- 32-bit complement of a word below `2^32`. -/
def bnot32 (n : Nat) : Nat := 4294967295 - w32 n

def shaCh (x y z : Nat) : Nat := w32 ((x &&& y) ^^^ (bnot32 x &&& z))

def shaMaj (x y z : Nat) : Nat := w32 ((x &&& y) ^^^ (x &&& z) ^^^ (y &&& z))

def bigSigma0 (x : Nat) : Nat := rotr 2 x ^^^ rotr 13 x ^^^ rotr 22 x

def bigSigma1 (x : Nat) : Nat := rotr 6 x ^^^ rotr 11 x ^^^ rotr 25 x

def smallSigma0 (x : Nat) : Nat := rotr 7 x ^^^ rotr 18 x ^^^ (x >>> 3)

def smallSigma1 (x : Nat) : Nat := rotr 17 x ^^^ rotr 19 x ^^^ (x >>> 10)

def shaK : List Nat :=
  [1116352408, 1899447441, 3049323471, 3921009573, 961987163, 1508970993,
   2453635748, 2870763221, 3624381080, 310598401, 607225278, 1426881987,
   1925078388, 2162078206, 2614888103, 3248222580, 3835390401, 4022224774,
   264347078, 604807628, 770255983, 1249150122, 1555081692, 1996064986,
   2554220882, 2821834349, 2952996808, 3210313671, 3336571891, 3584528711,
   113926993, 338241895, 666307205, 773529912, 1294757372, 1396182291,
   1695183700, 1986661051, 2177026350, 2456956037, 2730485921, 2820302411,
   3259730800, 3345764771, 3516065817, 3600352804, 4094571909, 275423344,
   430227734, 506948616, 659060556, 883997877, 958139571, 1322822218,
   1537002063, 1747873779, 1955562222, 2024104815, 2227730452, 2361852424,
   2428436474, 2756734187, 3204031479, 3329325298]

def shaH0 : List Nat :=
  [1779033703, 3144134277, 1013904242, 2773480762, 1359893119, 2600822924, 528734635, 1541459225]

/-- `count` bytes of `n`, big-endian. -/
def bytesBE (count n : Nat) : List Nat :=
  (List.range count).reverse.map (fun i => (n >>> (8 * i)) % 256)

/-- SHA-256 message padding. -/
def shaPad (msg : List Nat) : List Nat :=
  let len := msg.length
  let zeros := (64 + 56 - (len % 64 + 1)) % 64
  msg ++ [128] ++ List.replicate zeros 0 ++ bytesBE 8 (len * 8)

/-- Group bytes into big-endian 32-bit words. -/
def toWords : List Nat → List Nat
  | b0 :: b1 :: b2 :: b3 :: rest => (b0 * 16777216 + b1 * 65536 + b2 * 256 + b3) :: toWords rest
  | _ => []

/-- Extend the 16 message-schedule words by `k` more. -/
def extendW (w : List Nat) : Nat → List Nat
  | 0 => w
  | k + 1 =>
    let nw := w32 (smallSigma1 (w.getD (w.length - 2) 0) + w.getD (w.length - 7) 0 +
      smallSigma0 (w.getD (w.length - 15) 0) + w.getD (w.length - 16) 0)
    extendW (w ++ [nw]) k

/-- One SHA-256 round on the 8-word working state. -/
def shaRound (st : List Nat) (kw : Nat × Nat) : List Nat :=
  match st with
  | [a, b, c, d, e, f, g, h] =>
    let t1 := w32 (h + bigSigma1 e + shaCh e f g + kw.1 + kw.2)
    let t2 := w32 (bigSigma0 a + shaMaj a b c)
    [w32 (t1 + t2), a, b, c, w32 (d + t1), e, f, g]
  | other => other

/-- Compress one 64-byte block into the hash state. -/
def shaCompress (h : List Nat) (block : List Nat) : List Nat :=
  let w := extendW (toWords block) 48
  let res := (shaK.zip w).foldl shaRound h
  (h.zip res).map (fun p => w32 (p.1 + p.2))

/-- Split into 64-byte chunks (fuel-based). -/
def chunksAux {α : Type} : Nat → List α → List (List α)
  | 0, _ => []
  | _, [] => []
  | fuel + 1, l => l.take 64 :: chunksAux fuel (l.drop 64)

def chunks64 {α : Type} (l : List α) : List (List α) := chunksAux l.length l

/-- SHA-256 of a byte sequence, as the eight 32-bit state words. -/
def sha256Words (msg : List Nat) : List Nat :=
  (chunks64 (shaPad msg)).foldl shaCompress shaH0

/-- Eight lowercase hex digits of a 32-bit word. -/
def hex8 (n : Nat) : String :=
  hex4 (n / 65536 % 65536) ++ hex4 (n % 65536)

/-- `hashlib.sha256(s.encode("utf-8")).hexdigest()`. -/
def sha256hex (s : String) : String :=
  String.join ((sha256Words (utf8Bytes s)).map hex8)

/-! ## Configuration constants (env defaults from main.py) -/

def MAX_PROJECT_BYTES : Nat := 900000
def MAX_PROJECT_TOTAL_BYTES : Nat := 900000000
def EMPTY_OVERWRITE_MAX_BYTES : Nat := 800
def NONEMPTY_PROJECT_MIN_BYTES : Nat := 1600
def DEFAULT_PROJECT_ID : String := "default"

/-! ## Timestamp stamping -/

/-- `monotonic_updated_at_ms(previous)`: `max(now_ms, prev_ms + 1)` where
`now_ms = int(time.time() * 1000)` is passed explicitly.  A falsy (zero)
`previous` yields `prev_ms = 0`, so the formula is `max now (previous + 1)`
for every integer input. -/
def monotonic_updated_at_ms (now_ms previous : Int) : Int :=
  max now_ms (previous + 1)

/-- `x if isinstance(x, int) else 0`; Python `bool` is a subclass of `int`. -/
def intOr0 : JVal → Int
  | .int n => n
  | .bool b => if b then 1 else 0
  | _ => 0

/-- Python `a or b`. -/
def pyOr (a b : JVal) : JVal := if jTruthy a then a else b

/-- Python `str(x)`.  For containers the exact `repr` text is approximated by
the JSON rendering; every truthy non-string renders to non-blank text, which
is the only property the guards depend on. -/
def pyStrOf : JVal → String
  | .null => "None"
  | .bool true => "True"
  | .bool false => "False"
  | .int n => intRepr n
  | .str s => s
  | .arr xs => jsonDumps (.arr xs)
  | .obj fs => jsonDumps (.obj fs)

/-! ## Size estimation and limit validation -/

/-- `len(json.dumps(raw, sort_keys=True, separators=(",", ":")).encode("utf-8"))`. -/
def estimate_project_bytes (v : JVal) : Nat :=
  (utf8Bytes (jsonDumps v)).length

/-- `validate_project_limits`: the per-project and global byte ceilings.
Returns the `reason` string of the error dict, if any. -/
def validate_project_limits (v : JVal) : Option String :=
  let size_bytes := estimate_project_bytes v
  if 0 < MAX_PROJECT_BYTES ∧ size_bytes > MAX_PROJECT_BYTES then
    some "project_too_large"
  else if 0 < MAX_PROJECT_TOTAL_BYTES ∧ size_bytes > MAX_PROJECT_TOTAL_BYTES then
    some "project_total_limit_reached"
  else none

/-- `len(x)` when the value is a list, else `0`. -/
def listCount : JVal → Nat
  | .arr xs => xs.length
  | _ => 0

/-- `is_project_effectively_empty`, translated clause by clause. -/
def is_project_effectively_empty (fs : JObj) : Bool :=
  if fs.isEmpty then true
  else
    let docs_count := listCount (fget fs "documents")
    let codes_count := listCount (fget fs "codes")
    let categories_count := listCount (fget fs "categories")
    let memos_count := listCount (fget fs "memos")
    let core_category_id := pyOr (fget fs "coreCategoryId") (fget fs "core_category_id")
    let theory_html := pyOr (fget fs "theoryHtml") (fget fs "theory_description")
    let updated_at := fget fs "updated_at"
    docs_count = 0 && codes_count = 0 && categories_count = 0 && memos_count = 0 &&
      pyBlank (pyStrOf (pyOr core_category_id (.str ""))) &&
      pyBlank (pyStrOf (pyOr theory_html (.str ""))) &&
      updated_at ≠ .null

/-- Number of non-whitespace characters: `len("".join(text.split()))`. -/
def nonWsLen (s : String) : Nat :=
  (s.toList.filter (fun c => !pyWs c)).length

/-- Whitespace-removed text: `"".join(x.split())`. -/
def joinSplit (s : String) : String :=
  String.mk (s.toList.filter (fun c => !pyWs c))

/-- The html fallback branch of `estimate_document_content_chars` for one doc. -/
def docHtmlChars (df : JObj) : Nat :=
  match fget df "html" with
  | .str h =>
    if ¬ pyBlank h then
      let stripped := joinSplit (h.replace "&nbsp;" " ")
      if stripped = "<p></p>" ∨ stripped = "<p><br/></p>" ∨ stripped = "<p><br></p>" then 0
      else if stripped.toList.any Char.isAlphanum then
        (stripped.toList.filter (fun c => !pyWs c)).length
      else 0
    else 0
  | _ => 0

/-- Content characters of one entry of the `documents` list. -/
def docContentChars (d : JVal) : Nat :=
  match d with
  | .obj df =>
    let text0 := fget df "text"
    let text := match text0 with
      | .str s => if pyBlank s then fget df "content" else .str s
      | _ => fget df "content"
    match text with
    | .str s => if ¬ pyBlank s then nonWsLen s else docHtmlChars df
    | _ => docHtmlChars df
  | _ => 0

/-- `estimate_document_content_chars`: heuristic count of non-whitespace
document-content characters. -/
def estimate_document_content_chars (fs : JObj) : Nat :=
  match fget fs "documents" with
  | .arr docs => (docs.map docContentChars).sum
  | _ => 0

/-! ## Normalized project state (pydantic models) -/

structure NDocument where
  id : String
  title : String
  content : String
  html : String
  text : String
deriving Repr, DecidableEq

structure NCode where
  id : String
  name : String
  color : String
deriving Repr, DecidableEq

structure NHighlight where
  id : String
  document_id : String
  start_index : Int
  end_index : Int
  code_id : String
deriving Repr, DecidableEq

structure NCategory where
  id : String
  name : String
  contained_code_ids : List String
  precondition : String
  action : String
  consequence : String
deriving Repr, DecidableEq

structure NProjectState where
  documents : List NDocument := []
  codes : List NCode := []
  highlights : List NHighlight := []
  categories : List NCategory := []
  core_category_id : Option String := none
  theory_description : String := ""
deriving Repr, DecidableEq

/-- Read a string field (pydantic `str` coercion approximated by a default). -/
def asStr (v : JVal) (d : String) : String :=
  match v with
  | .str s => s
  | _ => d

/-- Read an int field. -/
def asInt (v : JVal) (d : Int) : Int :=
  match v with
  | .int n => n
  | _ => d

/-- Read a list-of-strings field. -/
def asStrList (v : JVal) : List String :=
  match v with
  | .arr xs => xs.map (fun x => asStr x "")
  | _ => []

/-- `normalize_project_state`: derive the typed view from a raw payload,
coalescing the historical field-name spellings exactly as the source does. -/
def normalize_project_state (p : JVal) : NProjectState :=
  let documents := match jgetD p "documents" (.arr []) with
    | .arr ds => ds.map (fun d =>
        let content := pyOr (jget0 d "content") (pyOr (jget0 d "text") (.str ""))
        { id := asStr (jgetD d "id" (.str "")) ""
          title := asStr (jgetD d "title" (.str "")) ""
          content := asStr content ""
          html := asStr (jgetD d "html" (.str "")) ""
          text := asStr (jgetD d "text" (.str "")) "" : NDocument })
    | _ => []
  let codes := match jgetD p "codes" (.arr []) with
    | .arr cs => cs.map (fun c =>
        { id := asStr (jgetD c "id" (.str "")) ""
          name := asStr (pyOr (jget0 c "name") (pyOr (jget0 c "label") (.str ""))) ""
          color := asStr (pyOr (jget0 c "color") (pyOr (jget0 c "colorHex") (.str "#E2E8F0"))) "#E2E8F0"
          : NCode })
    | _ => []
  let highlights := match jgetD p "highlights" (.arr []) with
    | .arr hs => hs.map (fun h =>
        { id := asStr (jgetD h "id" (.str "")) ""
          document_id := asStr (jgetD h "document_id" (.str "")) ""
          start_index := asInt (jgetD h "start_index" (.int 0)) 0
          end_index := asInt (jgetD h "end_index" (.int 0)) 0
          code_id := asStr (jgetD h "code_id" (.str "")) "" : NHighlight })
    | _ => []
  let categories := match jgetD p "categories" (.arr []) with
    | .arr cs => cs.map (fun c =>
        { id := asStr (jgetD c "id" (.str "")) ""
          name := asStr (jgetD c "name" (.str "")) ""
          contained_code_ids :=
            asStrList (pyOr (jgetD c "contained_code_ids" (.arr [])) (jgetD c "codeIds" (.arr [])))
          precondition := asStr (jgetD c "precondition" (.str "")) ""
          action := asStr (jgetD c "action" (.str "")) ""
          consequence := asStr (jgetD c "consequence" (.str "")) "" : NCategory })
    | _ => []
  let core := pyOr (jget0 p "core_category_id") (jget0 p "coreCategoryId")
  { documents := documents
    codes := codes
    highlights := highlights
    categories := categories
    core_category_id := match core with
      | .str s => some s
      | _ => none
    theory_description :=
      asStr (pyOr (jgetD p "theory_description" (.str "")) (jgetD p "theoryHtml" (.str ""))) "" }

/-- `ProjectState.model_dump()` of a normalized state, as a raw JSON value. -/
def dumpProjectState (ps : NProjectState) : JVal :=
  .obj
    [("documents", .arr (ps.documents.map (fun d => .obj
        [("id", .str d.id), ("title", .str d.title), ("content", .str d.content),
         ("html", .str d.html), ("text", .str d.text)]))),
     ("codes", .arr (ps.codes.map (fun c => .obj
        [("id", .str c.id), ("name", .str c.name), ("color", .str c.color)]))),
     ("highlights", .arr (ps.highlights.map (fun h => .obj
        [("id", .str h.id), ("document_id", .str h.document_id),
         ("start_index", .int h.start_index), ("end_index", .int h.end_index),
         ("code_id", .str h.code_id)]))),
     ("categories", .arr (ps.categories.map (fun c => .obj
        [("id", .str c.id), ("name", .str c.name),
         ("contained_code_ids", .arr (c.contained_code_ids.map JVal.str)),
         ("precondition", .str c.precondition), ("action", .str c.action),
         ("consequence", .str c.consequence)]))),
     ("core_category_id", match ps.core_category_id with
        | some s => .str s
        | none => .null),
     ("theory_description", .str ps.theory_description)]

/-! ## Server state: in-memory snapshots and the guarded persistence gateway -/

/-- The mutable module-level registries relevant to project state:
`in_memory_project_raws`, `in_memory_projects`, `last_saved_project_hash`,
plus a counter of performed `doc_ref.set` calls on the backing store. -/
structure SrvState where
  raws : String → Option JVal
  projects : String → Option NProjectState
  last_saved_project_hash : String → Option String
  store_writes : Nat
deriving Inhabited

/-- Update one key of a string-keyed map. -/
def supdate {V : Type} (f : String → Option V) (k : String) (v : V) : String → Option V :=
  fun q => if q = k then some v else f q

/-- `get_in_memory_project_raw`: `in_memory_project_raws.get(pid, {})`. -/
def get_in_memory_project_raw (pid : String) (s : SrvState) : JVal :=
  (s.raws pid).getD (.obj [])

/-- `get_in_memory_project` (the read part; `setdefault` inserts an empty
state when missing). -/
def get_in_memory_project (pid : String) (s : SrvState) : NProjectState :=
  (s.projects pid).getD {}

/-- `set_in_memory_project`: store the raw payload and its normalized view. -/
def set_in_memory_project (pid : String) (project_raw : JVal) (s : SrvState) : SrvState :=
  { s with
    raws := supdate s.raws pid project_raw
    projects := supdate s.projects pid (normalize_project_state project_raw) }

/-- The copy of the payload with the top-level `updated_at` key popped when
present (`sanitized` in `compute_project_hash`). -/
def sanitizeUpdatedAt (project_raw : JVal) : JVal :=
  match project_raw with
  | .obj fs => if dhasKey "updated_at" fs then JVal.obj (dremove "updated_at" fs) else .obj fs
  | v => v

/-- `compute_project_hash`: SHA-256 of the canonical serialization with the
top-level `updated_at` key removed when present. -/
def compute_project_hash (project_raw : JVal) : Option String :=
  some (sha256hex (jsonDumps (sanitizeUpdatedAt project_raw)))

/-- `save_project_to_firestore`.  `docRef` models doc-ref availability and
`writeOk` whether the backing-store `set` call succeeds; the result is the
returned success flag plus the updated state (`store_writes` counts performed
backing-store writes). -/
def save_project_to_firestore (docRef writeOk : Bool) (project_raw : JVal)
    (project_id : Option String) (s : SrvState) : Bool × SrvState :=
  if docRef = false then (false, s)
  else
    let current_hash := compute_project_hash project_raw
    let hash_key := project_id.getD "default"
    let skip := match current_hash with
      | some h => h.length ≠ 0 && s.last_saved_project_hash hash_key = some h
      | none => false
    if skip then (true, s)
    else
      let s1 := { s with store_writes := s.store_writes + 1 }
      if writeOk then
        let s2 := match current_hash with
          | some h =>
            if h.length ≠ 0 then
              { s1 with last_saved_project_hash := supdate s1.last_saved_project_hash hash_key h }
            else s1
          | none => s1
        (true, s2)
      else (false, s1)

/-- `ensure_project_loaded`: hydrate the room from the backing store when the
load returns a truthy record, else lazily materialize an empty snapshot.
`loaded` is the result of `load_project_from_firestore`. -/
def ensure_project_loaded (pid : String) (loaded : Option JVal) (s : SrvState) : SrvState :=
  let hydrated := match loaded with
    | some p => if jTruthy p then some p else none
    | none => none
  match hydrated with
  | some p =>
    let s1 := set_in_memory_project pid p s
    match compute_project_hash p with
    | some h =>
      if h.length ≠ 0 then
        { s1 with last_saved_project_hash := supdate s1.last_saved_project_hash pid h }
      else s1
    | none => s1
  | none =>
    let s1 := if (s.projects pid).isNone then
        { s with projects := supdate s.projects pid {} } else s
    if (s1.raws pid).isNone ∧ (get_in_memory_project pid s1).documents ≠ [] then
      let dumped := dumpProjectState (get_in_memory_project pid s1)
      let s2 := { s1 with raws := supdate s1.raws pid dumped }
      match compute_project_hash dumped with
      | some h =>
        if h.length ≠ 0 then
          { s2 with last_saved_project_hash := supdate s2.last_saved_project_hash pid h }
        else s2
      | none => s2
    else s1

/-- `GET /project/state`: rehydrate the default room and return its raw and
normalized snapshots (`project_raw or None`). -/
def get_project_state (loaded : Option JVal) (s : SrvState) :
    SrvState × (Option JVal × NProjectState) :=
  let s1 := ensure_project_loaded DEFAULT_PROJECT_ID loaded s
  let project_raw := get_in_memory_project_raw DEFAULT_PROJECT_ID s1
  (s1, (if jTruthy project_raw then some project_raw else none,
        get_in_memory_project DEFAULT_PROJECT_ID s1))

/-! ## WebSocket `project:update` handler -/

/-- Observable outcome of one `project:update` message: the `reason` of a
`project:save:error` reply sent to the sender only (if any), whether the new
snapshot was broadcast to the room, the resulting server state, and whether
the handler would raise (non-dict payload reaching the stamping assignment). -/
structure WsUpdateResult where
  reply : Option String
  broadcasted : Bool
  srv : SrvState
  crashed : Bool
deriving Inhabited

/-- The payload pick `data.get("project_raw") or data.get("project", {})`. -/
def wsExtractRaw (data : JVal) : JVal :=
  let project_payload := jgetD data "project" (.obj [])
  let pr0 := jget0 data "project_raw"
  if jTruthy pr0 then pr0 else project_payload

/-- Whether the anti-wipe guard fires: the persisted record is a dict with
positive estimated document-content characters while the incoming payload has
zero. -/
def wsWipeCond (existing : Option JVal) (fields : JObj) : Bool :=
  let existing_doc_chars := match existing with
    | some (.obj ef) => estimate_document_content_chars ef
    | _ => 0
  let incoming_doc_chars := estimate_document_content_chars fields
  (match existing with | some (.obj _) => true | _ => false) &&
    existing_doc_chars > 0 && incoming_doc_chars = 0

/-- The `project:update` branch of the WebSocket message loop.  `now` is the
wall clock in ms, `existing` the backing-store read used by the wipe guard,
`docRef`/`writeOk` the backing-store behavior for the save. -/
def ws_project_update (pid : String) (data : JVal) (now : Int) (existing : Option JVal)
    (docRef writeOk : Bool) (s : SrvState) : WsUpdateResult :=
  match wsExtractRaw data with
  | .obj fields =>
    match validate_project_limits (.obj fields) with
    | some reason => ⟨some reason, false, s, false⟩
    | none =>
      if wsWipeCond existing fields then ⟨some "content_wipe", false, s, false⟩
      else
        let current_raw := get_in_memory_project_raw pid s
        let previous_ms := intOr0 (jget0 current_raw "updated_at")
        let stamped := JVal.obj
          (dset "updated_at" (.int (monotonic_updated_at_ms now previous_ms)) fields)
        let s1 := set_in_memory_project pid stamped s
        let storage_id := if pid = DEFAULT_PROJECT_ID then none else some pid
        let res := save_project_to_firestore docRef writeOk stamped storage_id s1
        ⟨if res.1 then none else some "firestore_error", true, res.2, false⟩
  | _ => ⟨none, false, s, true⟩

/-! ## WebSocket `yjs:update` handler and the join-time sync replay -/

def yjs_update_limit : Nat := 200

/-- Append one edit blob to a room's update log, then truncate to the most
recent `yjs_update_limit` entries. -/
def appendYjs (log : List JVal) (update : JVal) : List JVal :=
  let l := log ++ [update]
  if l.length > yjs_update_limit then l.drop (l.length - yjs_update_limit) else l

/-- The `yjs:update` branch: append when the blob is truthy and broadcast to
the other members. -/
def ws_yjs_update (log : List JVal) (data : JVal) : List JVal × Bool :=
  let update := jget0 data "update"
  if jTruthy update then (appendYjs log update, true) else (log, false)

/-- Updates carried by the `yjs:sync` message sent to a newly joined
connection: `yjs_update_logs.get(project_id, [])`. -/
def ws_join_sync_updates (yjsLogs : String → List JVal) (pid : String) : List JVal :=
  yjsLogs pid

/-! ## REST write `POST /projects/{project_id}/state` -/

inductive RestStatus where
  | ok (updated_at : Int)
  | invalid
  | limit (reason : String)
  | refused (reason : String)
  | saveFailed
deriving Repr, DecidableEq

structure RestResult where
  status : RestStatus
  srv : SrvState

/-- `payload.get("project_raw") or payload.get("project") or payload`. -/
def restExtractRaw (payload : JVal) : JVal :=
  pyOr (jget0 payload "project_raw") (pyOr (jget0 payload "project") payload)

/-- The anti-shrink / anti-wipe decision of the REST write path, applied to
the (already stamped) incoming fields and the backing-store read; returns the
refusal reason when the write is to be refused with HTTP 409. -/
def rest_guard_refusal (force_overwrite : Bool) (fields : JObj) (existing : Option JVal) :
    Option String :=
  if ¬ force_overwrite then
    let incoming_bytes := estimate_project_bytes (.obj fields)
    let existingFields : Option JObj := match existing with
      | some (.obj ef) => some ef
      | _ => none
    let existing_bytes := match existingFields with
      | some ef => estimate_project_bytes (.obj ef)
      | none => 0
    let existing_doc_chars := match existingFields with
      | some ef => estimate_document_content_chars ef
      | none => 0
    let incoming_doc_chars := estimate_document_content_chars fields
    let looks_like_content_wipe :=
      existingFields.isSome && existing_doc_chars > 0 && incoming_doc_chars = 0
    let looks_empty := is_project_effectively_empty fields || incoming_bytes ≤ 32
    let looks_suspiciously_small := existingFields.isSome &&
      existing_bytes ≥ NONEMPTY_PROJECT_MIN_BYTES &&
      incoming_bytes ≤ EMPTY_OVERWRITE_MAX_BYTES
    if (looks_empty || looks_suspiciously_small) &&
        (match existingFields with
         | some ef => !is_project_effectively_empty ef
         | none => false) then
      some "empty_overwrite"
    else if looks_like_content_wipe then some "content_wipe"
    else none
  else none

/-- `set_project_state_for_project`: the guarded REST write path.  `existing`
is the backing-store read `load_project_from_firestore(project_id)`. -/
def rest_set_state (pid : String) (payload : JVal) (now : Int) (existing : Option JVal)
    (docRef writeOk : Bool) (s : SrvState) : RestResult :=
  let project_raw0 := restExtractRaw payload
  let project_name := jget0 payload "name"
  let force_overwrite := jTruthy (jget0 payload "force")
  match project_raw0 with
  | .obj fields0 =>
    let prev_ms := intOr0 (fget fields0 "updated_at")
    let stampedAt := monotonic_updated_at_ms now prev_ms
    let fields := dset "updated_at" (.int stampedAt) fields0
    match validate_project_limits (.obj fields) with
    | some reason => ⟨.limit reason, s⟩
    | none =>
      match rest_guard_refusal force_overwrite fields existing with
      | some reason => ⟨.refused reason, s⟩
      | none =>
        let s1 := set_in_memory_project pid (.obj fields) s
        let res := save_project_to_firestore docRef writeOk (.obj fields) (some pid) s1
        if ¬ res.1 then ⟨.saveFailed, res.2⟩
        else
          let s3 := if jTruthy project_name ∧ docRef then
              { res.2 with store_writes := res.2.store_writes + 1 }
            else res.2
          ⟨.ok stampedAt, s3⟩
  | _ => ⟨.invalid, s⟩

/-! ## Procedural user-name generation (`ConnectionManager._generate_user_name`)

The random choices of the Python code are passed in explicitly as a list of
index pairs (one pair per `random.choice` round); the avoided set of live
names is passed as a list, as suggested by the pure-function reading
`generate_name(existing_names) -> name`. -/

def first_parts : List String :=
  ["Busiga", "Snälla", "Tokiga", "Glada", "Luriga", "Pigga",
   "Coola", "Snabba", "Mjuka", "Kloka", "Sköna", "Modiga"]

def second_parts : List String :=
  ["Räven", "Ugglan", "Igelkotten", "Bävern", "Lamasen", "Kängurun",
   "Pandan", "Humlan", "Sälen", "Älgen", "Vesslan", "Grodan"]

/-- One random attempt: `f"{random.choice(first_parts)} {random.choice(second_parts)}"`. -/
def pickToName (p : Nat × Nat) : String :=
  first_parts.getD (p.1 % first_parts.length) "" ++ " " ++
    second_parts.getD (p.2 % second_parts.length) ""

/-- `max(20, len(first_parts) * len(second_parts))`. -/
def name_max_attempts : Nat := max 20 (first_parts.length * second_parts.length)

/-- The bounded random retry loop: return the first non-colliding pick. -/
def tryRandomNames : List (Nat × Nat) → List String → Option String
  | [], _ => none
  | p :: ps, existing =>
    let base := pickToName p
    if base ∈ existing then tryRandomNames ps existing else some base

/-- `f"{first_parts[0]} {second_parts[0]}"`. -/
def fallback_base : String := first_parts.getD 0 "" ++ " " ++ second_parts.getD 0 ""

/-- `f"{base} {suffix}"`. -/
def suffixName (k : Nat) : String := fallback_base ++ " " ++ natRepr k

/-- The deterministic fallback loop `while f"{base} {suffix}" in existing:
suffix += 1`, run with explicit fuel.  `existing.length + 1` candidates always
contain a free name, so the fuel below never runs out. -/
def findSuffixAux (existing : List String) : Nat → Nat → Option Nat
  | 0, _ => none
  | fuel + 1, k => if suffixName k ∈ existing then findSuffixAux existing fuel (k + 1) else some k

/-- `_generate_user_name`, as a pure function of the random picks and the
avoided set of live names. -/
def generate_user_name (picks : List (Nat × Nat)) (existing : List String) : String :=
  match tryRandomNames (picks.take name_max_attempts) existing with
  | some base => base
  | none =>
    match findSuffixAux existing (existing.length + 1) 2 with
    | some k => suffixName k
    | none => fallback_base

/-- `_generate_user_color`: round-robin palette indexed by room population. -/
def user_color_palette : List String :=
  ["#2563EB", "#7C3AED", "#DC2626", "#16A34A", "#D97706", "#0EA5E9", "#DB2777", "#0F766E"]

def generate_user_color (population : Nat) : String :=
  user_color_palette.getD (population % user_color_palette.length) ""

/-! ## Identity and presence registry (`ConnectionManager`, one room)

Rooms are fully independent in the source (every registry is keyed by
`project_id` first), so the model captures the registries of a single room.
WebSocket objects are modelled by naturals. -/

abbrev Conn := Nat

structure WUser where
  id : String
  name : String
  color : String
  client_id : Option String
deriving Repr, DecidableEq

/-- Per-room registries: `active_connections[pid]`, `connection_users`
(restricted to this room's sockets), `users[pid]`, `client_users[pid]` and
`user_connections[pid]`. -/
structure RoomState where
  connections : List Conn
  connUsers : List (Conn × String)
  users : List (String × WUser)
  clientUsers : List (String × String)
  userConns : List (String × Conn)
deriving Repr, DecidableEq

def RoomState.empty : RoomState := ⟨[], [], [], [], []⟩

/-- Live names fed to `_generate_user_name`: every non-empty `name` of a
registered user dict. -/
def existingNames (s : RoomState) : List String :=
  (s.users.map (fun p => p.2.name)).filter (fun n => n.length ≠ 0)

/-- `ConnectionManager.connect` for one room.  `freshUuid` stands for
`uuid4()` and `picks` for the random choices of the name generator.  Returns
the new state, the close events `(socket, reason)` issued, and the user dict
returned to the caller. -/
def connect (ws : Conn) (client_id : Option String) (freshUuid : String)
    (picks : List (Nat × Nat)) (s : RoomState) : RoomState × List (Conn × String) × WUser :=
  let found : Option (String × Option WUser × Option Conn) :=
    match client_id with
    | some cid =>
      match dlookup cid s.clientUsers with
      | some euid => some (euid, dlookup euid s.users, dlookup euid s.userConns)
      | none => none
    | none => none
  let closedOld : RoomState × List (Conn × String) :=
    match found with
    | some (_, _, some old) =>
      ({ s with connections := s.connections.erase old, connUsers := dremove old s.connUsers },
       [(old, "replaced")])
    | _ => (s, [])
  let s1 := closedOld.1
  let reuse : Option (String × WUser) :=
    match found with
    | some (euid, some eu, _) => some (euid, eu)
    | _ => none
  let idUser : String × WUser :=
    match reuse with
    | some (euid, eu) =>
      let eu1 := if eu.name = "" then { eu with name := generate_user_name picks (existingNames s1) } else eu
      let eu2 := if eu1.color = "" then { eu1 with color := generate_user_color s1.users.length } else eu1
      (euid, eu2)
    | none =>
      (freshUuid,
       { id := freshUuid
         name := generate_user_name picks (existingNames s1)
         color := generate_user_color s1.users.length
         client_id := none })
  let uid := idUser.1
  let user1 : WUser :=
    match client_id with
    | some cid => { idUser.2 with client_id := some cid }
    | none => idUser.2
  let s2 : RoomState :=
    { s1 with
      connections := s1.connections ++ [ws]
      connUsers := dset ws uid s1.connUsers
      users := dset uid user1 s1.users
      userConns := dset uid ws s1.userConns }
  let s3 : RoomState :=
    match client_id with
    | some cid => { s2 with clientUsers := dset cid uid s2.clientUsers }
    | none => s2
  (s3, closedOld.2, user1)

/-- `ConnectionManager.disconnect` for one room. -/
def disconnect (ws : Conn) (s : RoomState) : RoomState :=
  let s1 := { s with connections := s.connections.erase ws }
  match dlookup ws s1.connUsers with
  | none => { s1 with connUsers := dremove ws s1.connUsers }
  | some uid =>
    let s2 := { s1 with connUsers := dremove ws s1.connUsers }
    match dlookup uid s2.users with
    | none => s2
    | some u =>
      let s3 := { s2 with users := dremove uid s2.users, userConns := dremove uid s2.userConns }
      match u.client_id with
      | some cid =>
        if dlookup cid s3.clientUsers = some uid then
          { s3 with clientUsers := dremove cid s3.clientUsers }
        else s3
      | none => s3

/-- `ConnectionManager.get_users`: the member list of the room. -/
def get_users (s : RoomState) : List WUser := s.users.map Prod.snd

/-- The `presence:rename` branch: trim, ignore when empty, cap at 40 chars. -/
def presence_rename (uid : String) (rawName : String) (s : RoomState) : RoomState :=
  let next_name := pyStrip rawName
  if next_name.length ≠ 0 then
    match dlookup uid s.users with
    | some u => { s with users := dset uid { u with name := next_name.take 40 } s.users }
    | none => s
  else s

/-- The shared send loop of `broadcast` / `broadcast_except`: iterate over a
snapshot of the room's connections; a failing send disconnects that
connection only.  Returns the final state and the connections that received
the message. -/
def sendLoop (fails : Conn → Bool) (skip : Option Conn) :
    List Conn → RoomState × List Conn → RoomState × List Conn
  | [], acc => acc
  | c :: rest, (st, out) =>
    if skip = some c then
      sendLoop fails skip rest (st, out)
    else if fails c then sendLoop fails skip rest (disconnect c st, out)
    else sendLoop fails skip rest (st, out ++ [c])

/-- `ConnectionManager.broadcast` (delivery effects only; the message itself
is tagged with the room id before the loop). -/
def broadcastRun (fails : Conn → Bool) (s : RoomState) : RoomState × List Conn :=
  sendLoop fails none s.connections (s, [])

/-- `ConnectionManager.broadcast_except`. -/
def broadcastExceptRun (fails : Conn → Bool) (skip : Conn) (s : RoomState) :
    RoomState × List Conn :=
  sendLoop fails (some skip) s.connections (s, [])

/-- Registry states reachable from an empty room by joins, disconnects and
renames.  Join steps receive a genuinely fresh socket object and a fresh
`uuid4` identity, as in the running server. -/
inductive Reach : RoomState → Prop where
  | init : Reach RoomState.empty
  | step_connect (s : RoomState) (ws : Conn) (cid : Option String) (uuid : String)
      (picks : List (Nat × Nat)) :
      Reach s →
      ws ∉ s.connections →
      dlookup ws s.connUsers = none →
      (∀ u, dlookup u s.userConns ≠ some ws) →
      dlookup uuid s.users = none →
      dlookup uuid s.userConns = none →
      (∀ c, dlookup c s.clientUsers ≠ some uuid) →
      (∀ c, dlookup c s.connUsers ≠ some uuid) →
      Reach (connect ws cid uuid picks s).1
  | step_disconnect (s : RoomState) (ws : Conn) : Reach s → Reach (disconnect ws s)
  | step_rename (s : RoomState) (uid : String) (nm : String) :
      Reach s → Reach (presence_rename uid nm s)

/-! ## Dictionary lemmas -/

section DictLemmas

variable {K V : Type} [DecidableEq K]

theorem dlookup_eq_none {k : K} {l : List (K × V)} :
    dlookup k l = none ↔ k ∉ dkeys l := by
  induction l with
  | nil => simp [dlookup, dkeys]
  | cons p rest ih =>
    simp only [dlookup, dkeys, List.map_cons, List.mem_cons]
    by_cases h : p.1 = k
    · simp [h]
    · simp [h, ih, dkeys, Ne.symm h]

theorem dlookup_mem {k : K} {v : V} {l : List (K × V)} (h : dlookup k l = some v) :
    (k, v) ∈ l := by
  induction l with
  | nil => simp [dlookup] at h
  | cons p rest ih =>
    simp only [dlookup] at h
    by_cases hk : p.1 = k
    · rw [if_pos hk] at h
      cases h
      cases p with
      | mk pk pv => rw [show pk = k from hk]; exact List.mem_cons_self _ _
    · rw [if_neg hk] at h
      exact List.mem_cons_of_mem _ (ih h)

theorem dlookup_isSome_of_mem {k : K} {v : V} {l : List (K × V)} (h : (k, v) ∈ l) :
    (dlookup k l).isSome := by
  induction l with
  | nil => simp at h
  | cons p rest ih =>
    rcases List.mem_cons.mp h with h1 | h2
    · simp [dlookup, ← h1]
    · simp only [dlookup]
      by_cases hk : p.1 = k
      · simp [hk]
      · simp [hk, ih h2]

theorem dlookup_append_right {k : K} {l m : List (K × V)} (h : dlookup k l = none) :
    dlookup k (l ++ m) = dlookup k m := by
  induction l with
  | nil => rfl
  | cons p rest ih =>
    simp only [dlookup, List.cons_append] at h ⊢
    by_cases hk : p.1 = k
    · rw [if_pos hk] at h; cases h
    · rw [if_neg hk] at h ⊢
      exact ih h

theorem dlookup_append_left {k : K} {v : V} {l m : List (K × V)} (h : dlookup k l = some v) :
    dlookup k (l ++ m) = some v := by
  induction l with
  | nil => simp [dlookup] at h
  | cons p rest ih =>
    simp only [dlookup, List.cons_append] at h ⊢
    by_cases hk : p.1 = k
    · rw [if_pos hk] at h ⊢; exact h
    · rw [if_neg hk] at h ⊢
      exact ih h

theorem dlookup_mapset {k : K} (v : V) {l : List (K × V)}
    (h : (dlookup k l).isSome = true) :
    dlookup k (l.map (fun p => if p.1 = k then (k, v) else p)) = some v := by
  induction l with
  | nil => simp [dlookup] at h
  | cons p rest ih =>
    rw [List.map_cons]
    by_cases hk : p.1 = k
    · rw [if_pos hk]
      simp [dlookup]
    · rw [if_neg hk]
      simp only [dlookup, if_neg hk] at h ⊢
      exact ih h

theorem dset_self (k : K) (v : V) (l : List (K × V)) :
    dlookup k (dset k v l) = some v := by
  unfold dset
  by_cases h : dhasKey k l = true
  · rw [if_pos h]
    exact dlookup_mapset v h
  · rw [if_neg h]
    unfold dhasKey at h
    have hnone : dlookup k l = none := by
      cases hl : dlookup k l with
      | none => rfl
      | some v2 => rw [hl] at h; simp at h
    rw [dlookup_append_right hnone]
    simp [dlookup]

theorem dlookup_mapset_other {k q : K} (hne : q ≠ k) (v : V) (l : List (K × V)) :
    dlookup q (l.map (fun p => if p.1 = k then (k, v) else p)) = dlookup q l := by
  induction l with
  | nil => rfl
  | cons p rest ih =>
    rw [List.map_cons]
    by_cases hk : p.1 = k
    · rw [if_pos hk]
      simp only [dlookup]
      rw [if_neg (Ne.symm hne), if_neg (fun hq => (Ne.symm hne) (hk ▸ hq))]
      exact ih
    · rw [if_neg hk]
      simp only [dlookup]
      by_cases hq : p.1 = q
      · rw [if_pos hq, if_pos hq]
      · rw [if_neg hq, if_neg hq]
        exact ih

theorem dset_other {k q : K} (hne : q ≠ k) (v : V) (l : List (K × V)) :
    dlookup q (dset k v l) = dlookup q l := by
  unfold dset
  by_cases h : dhasKey k l = true
  · rw [if_pos h]
    exact dlookup_mapset_other hne v l
  · rw [if_neg h]
    cases hl : dlookup q l with
    | some v2 => exact dlookup_append_left hl
    | none =>
      rw [dlookup_append_right hl]
      simp [dlookup, Ne.symm hne]

theorem dremove_self (k : K) (l : List (K × V)) :
    dlookup k (dremove k l) = none := by
  induction l with
  | nil => rfl
  | cons p rest ih =>
    simp only [dremove]
    by_cases hk : p.1 = k
    · rw [if_pos hk]; exact ih
    · rw [if_neg hk]
      simp only [dlookup, if_neg hk]
      exact ih

theorem dremove_other {k q : K} (hne : q ≠ k) (l : List (K × V)) :
    dlookup q (dremove k l) = dlookup q l := by
  induction l with
  | nil => rfl
  | cons p rest ih =>
    simp only [dremove]
    by_cases hk : p.1 = k
    · rw [if_pos hk]
      simp only [dlookup]
      rw [if_neg (fun hq => (Ne.symm hne) (hk ▸ hq))]
      exact ih
    · rw [if_neg hk]
      simp only [dlookup]
      by_cases hq : p.1 = q
      · simp [hq]
      · rw [if_neg hq, if_neg hq]
        exact ih

theorem mem_dremove {k : K} {p : K × V} {l : List (K × V)} (h : p ∈ dremove k l) : p ∈ l := by
  induction l with
  | nil => simp [dremove] at h
  | cons q rest ih =>
    simp only [dremove] at h
    by_cases hk : q.1 = k
    · rw [if_pos hk] at h
      exact List.mem_cons_of_mem _ (ih h)
    · rw [if_neg hk] at h
      rcases List.mem_cons.mp h with h1 | h2
      · exact h1 ▸ List.mem_cons_self _ _
      · exact List.mem_cons_of_mem _ (ih h2)

theorem mem_dset {k : K} {v : V} {p : K × V} {l : List (K × V)} (h : p ∈ dset k v l) :
    p = (k, v) ∨ p ∈ l := by
  unfold dset at h
  by_cases hk : dhasKey k l = true
  · rw [if_pos hk] at h
    rcases List.mem_map.mp h with ⟨q, hq, hmap⟩
    by_cases hqk : q.1 = k
    · rw [if_pos hqk] at hmap
      left; exact hmap.symm
    · rw [if_neg hqk] at hmap
      right; rw [← hmap]; exact hq
  · rw [if_neg hk] at h
    rcases List.mem_append.mp h with h1 | h2
    · right; exact h1
    · left; simpa using h2

theorem dremove_sublist (k : K) (l : List (K × V)) :
    List.Sublist (dremove k l) l := by
  induction l with
  | nil => simp [dremove]
  | cons p rest ih =>
    simp only [dremove]
    by_cases hk : p.1 = k
    · rw [if_pos hk]
      exact ih.cons p
    · rw [if_neg hk]
      exact ih.cons₂ p

theorem dkeys_nodup_dremove {k : K} {l : List (K × V)} (h : (dkeys l).Nodup) :
    (dkeys (dremove k l)).Nodup :=
  ((dremove_sublist k l).map Prod.fst).nodup h

theorem dkeys_dset_of_hasKey {k : K} {v : V} {l : List (K × V)} (h : dhasKey k l = true) :
    dkeys (dset k v l) = dkeys l := by
  unfold dset
  rw [if_pos h]
  unfold dkeys
  rw [List.map_map]
  apply List.map_congr_left
  intro p _
  by_cases hk : p.1 = k
  · simp [hk]
  · simp [hk]

theorem dkeys_dset_of_not_hasKey {k : K} {v : V} {l : List (K × V)} (h : ¬ dhasKey k l = true) :
    dkeys (dset k v l) = dkeys l ++ [k] := by
  unfold dset
  rw [if_neg h]
  simp [dkeys]

theorem not_hasKey_not_mem_dkeys {k : K} {l : List (K × V)} (h : ¬ dhasKey k l = true) :
    k ∉ dkeys l := by
  rw [← dlookup_eq_none]
  unfold dhasKey at h
  cases hl : dlookup k l with
  | none => rfl
  | some v2 => rw [hl] at h; simp at h

theorem dkeys_nodup_dset {k : K} {v : V} {l : List (K × V)} (h : (dkeys l).Nodup) :
    (dkeys (dset k v l)).Nodup := by
  by_cases hk : dhasKey k l = true
  · rw [dkeys_dset_of_hasKey hk]; exact h
  · rw [dkeys_dset_of_not_hasKey hk]
    simp [List.nodup_append, h, not_hasKey_not_mem_dkeys hk]

end DictLemmas

/-! ## Auxiliary facts: hash digests are non-empty, replay buffers are suffixes -/

theorem shaRound_length (st : List Nat) (kw : Nat × Nat) :
    (shaRound st kw).length = st.length := by
  unfold shaRound
  split <;> simp_all

theorem foldl_shaRound_length (l : List (Nat × Nat)) (st : List Nat) :
    (l.foldl shaRound st).length = st.length := by
  induction l generalizing st with
  | nil => rfl
  | cons p rest ih => rw [List.foldl_cons, ih, shaRound_length]

theorem shaCompress_length (h block : List Nat) (hh : h.length = 8) :
    (shaCompress h block).length = 8 := by
  unfold shaCompress
  rw [List.length_map, List.length_zip, foldl_shaRound_length, hh]
  simp

theorem foldl_shaCompress_length (blocks : List (List Nat)) (st : List Nat)
    (h : st.length = 8) : (blocks.foldl shaCompress st).length = 8 := by
  induction blocks generalizing st with
  | nil => exact h
  | cons b rest ih => rw [List.foldl_cons]; exact ih _ (shaCompress_length _ _ h)

theorem sha256Words_length (m : List Nat) : (sha256Words m).length = 8 :=
  foldl_shaCompress_length _ _ rfl

theorem length_foldl_append (l : List String) (acc : String) :
    (l.foldl (fun r s => r ++ s) acc).length = acc.length + (l.map String.length).sum := by
  induction l generalizing acc with
  | nil => simp
  | cons x rest ih =>
    rw [List.foldl_cons, ih, String.length_append]
    simp [Nat.add_assoc]

theorem hex4_length (n : Nat) : (hex4 n).length = 4 := rfl

theorem hex8_length (n : Nat) : (hex8 n).length = 8 := by
  rw [hex8, String.length_append, hex4_length, hex4_length]

theorem sha256hex_length (s : String) : (sha256hex s).length = 64 := by
  unfold sha256hex String.join
  rw [length_foldl_append]
  rw [List.map_map]
  have : (String.length ∘ hex8) = fun _ => 8 := by
    funext w
    exact hex8_length w
  rw [this, List.map_const', List.sum_replicate, sha256Words_length]
  rfl

theorem sha256hex_ne_empty (s : String) : sha256hex s ≠ "" := by
  intro he
  have := sha256hex_length s
  rw [he] at this
  simp [String.length] at this

theorem sha256hex_length_ne_zero (s : String) : (sha256hex s).length ≠ 0 := by
  rw [sha256hex_length]
  omega

/-- The suffix of the most recent `n` entries. -/
def lastN {α : Type} (n : Nat) (l : List α) : List α := l.drop (l.length - n)

theorem lastN_length {α : Type} (n : Nat) (l : List α) :
    (lastN n l).length = min l.length n := by
  simp only [lastN, List.length_drop]
  omega

theorem appendYjs_eq_lastN (log : List JVal) (u : JVal) :
    appendYjs log u = lastN yjs_update_limit (log ++ [u]) := by
  unfold appendYjs lastN
  by_cases h : (log ++ [u]).length > yjs_update_limit
  · rw [if_pos h]
  · rw [if_neg h]
    have hz : (log ++ [u]).length - yjs_update_limit = 0 := by omega
    rw [hz, List.drop_zero]

theorem lastN_append_left {α : Type} (n : Nat) (xs ys : List α) :
    lastN n (lastN n xs ++ ys) = lastN n (xs ++ ys) := by
  unfold lastN
  rw [← List.drop_append_of_le_length (by omega : xs.length - n ≤ xs.length)]
  rw [List.drop_drop]
  congr 1
  simp only [List.length_drop, List.length_append]
  omega

/-! ## Claim C8: the effectively-empty test -/

/-- The effectively-empty predicate as the specification words it: the four
content lists all empty or absent, the coalesced core-category reference and
theory text (either historical key spelling) blank after trimming, and a
(non-null) `updated_at` carried by the payload. -/
def specEffectivelyEmpty (fs : JObj) : Bool :=
  listCount (fget fs "documents") = 0 && listCount (fget fs "codes") = 0 &&
    listCount (fget fs "categories") = 0 && listCount (fget fs "memos") = 0 &&
    pyBlank (pyStrOf (pyOr (pyOr (fget fs "coreCategoryId") (fget fs "core_category_id")) (.str ""))) &&
    pyBlank (pyStrOf (pyOr (pyOr (fget fs "theoryHtml") (fget fs "theory_description")) (.str ""))) &&
    fget fs "updated_at" ≠ .null

/-- C8 counterexample: the empty payload `{}` is classified as effectively
empty by `is_project_effectively_empty` although it carries no `updated_at`
field, so the claimed iff fails at `{}`. -/
theorem c8_counterexample :
    is_project_effectively_empty ([] : JObj) = true ∧
    specEffectivelyEmpty ([] : JObj) = false := by
  decide

/-- C8 (amended): a payload is classified as effectively empty iff it is the
empty object, or its document, code, category and memo lists are all empty or
absent, its coalesced core-category reference and theory text (under either
historical key spelling) are blank after trimming, and the payload carries a
non-null `updated_at` field. -/
theorem c8_effectively_empty (fs : JObj) :
    is_project_effectively_empty fs = (fs.isEmpty || specEffectivelyEmpty fs) := by
  cases fs with
  | nil => rfl
  | cons p ps => rfl

/-! ## Claim C6: bounded replay log -/

/-- C6: appending edit blobs keeps exactly the most recent
`yjs_update_limit = 200` entries in insertion order (any append sequence from
a within-capacity buffer yields the suffix of the concatenation), the buffer
never exceeds the capacity, and a newly joined connection is replayed exactly
that buffer in its `yjs:sync` message. -/
theorem c6_bounded_replay_log (log blobs : List JVal) (yjsLogs : String → List JVal)
    (pid : String) (h : log.length ≤ yjs_update_limit) :
    blobs.foldl appendYjs log = lastN yjs_update_limit (log ++ blobs) ∧
    (blobs.foldl appendYjs log).length = min (log ++ blobs).length yjs_update_limit ∧
    ws_join_sync_updates yjsLogs pid = yjsLogs pid := by
  have main : ∀ (bs l : List JVal), l.length ≤ yjs_update_limit →
      bs.foldl appendYjs l = lastN yjs_update_limit (l ++ bs) := by
    intro bs
    induction bs with
    | nil =>
      intro l hl
      simp only [List.foldl_nil, List.append_nil, lastN]
      have hz : l.length - yjs_update_limit = 0 := by omega
      rw [hz, List.drop_zero]
    | cons b rest ih =>
      intro l hl
      rw [List.foldl_cons, appendYjs_eq_lastN,
        ih _ (by rw [lastN_length]; omega),
        lastN_append_left, List.append_assoc, List.singleton_append]
  refine ⟨main blobs log h, ?_, rfl⟩
  rw [main blobs log h, lastN_length, List.length_append]

/-- C6 witness: 250 appends into an empty room log leave exactly the most
recent 200 blobs. -/
theorem c6_witness :
    ((List.range 250).map (fun i => JVal.int (Int.ofNat i))).foldl appendYjs [] =
      lastN yjs_update_limit ([] ++ (List.range 250).map (fun i => JVal.int (Int.ofNat i))) := by
  exact (c6_bounded_replay_log [] _ (fun _ => []) "room" (by decide)).1

/-! ## Claim C4: deduplicated persistence -/

/-- A server state with empty registries, as right after process start. -/
def emptySrv : SrvState := ⟨fun _ => none, fun _ => none, fun _ => none, 0⟩

theorem dremove_of_not_hasKey {K V : Type} [DecidableEq K] {k : K} {l : List (K × V)}
    (h : dlookup k l = none) : dremove k l = l := by
  induction l with
  | nil => rfl
  | cons p rest ih =>
    simp only [dlookup] at h
    by_cases hk : p.1 = k
    · rw [if_pos hk] at h; cases h
    · rw [if_neg hk] at h
      simp only [dremove, if_neg hk]
      rw [ih h]

theorem compute_project_hash_obj (f : JObj) :
    compute_project_hash (.obj f) =
      some (sha256hex (jsonDumps (.obj (dremove "updated_at" f)))) := by
  unfold compute_project_hash sanitizeUpdatedAt
  by_cases h : dhasKey "updated_at" f = true
  · simp only [h, if_true]
  · have hnone : dlookup "updated_at" f = none := by
      unfold dhasKey at h
      cases hl : dlookup "updated_at" f with
      | none => rfl
      | some v => rw [hl] at h; simp at h
    simp [show dhasKey "updated_at" f = false by simpa using h,
      dremove_of_not_hasKey hnone]

/-- C4: the persistence gateway hashes the payload with `updated_at` excluded
(payloads equal up to `updated_at` hash identically); a persist whose hash
equals the last successfully persisted hash for the room is skipped while
still reporting success and changing nothing; hence two consecutive persists
of content identical except for `updated_at` — starting from a state whose
cached hash differs — perform exactly one backing-store write and both report
success. -/
theorem c4_dedup_write :
    (∀ f1 f2 : JObj, dremove "updated_at" f1 = dremove "updated_at" f2 →
      compute_project_hash (.obj f1) = compute_project_hash (.obj f2)) ∧
    (∀ (raw : JVal) (pid : Option String) (s : SrvState) (wOk : Bool) (h : String),
      compute_project_hash raw = some h →
      s.last_saved_project_hash (pid.getD "default") = some h →
      h.length ≠ 0 →
      save_project_to_firestore true wOk raw pid s = (true, s)) ∧
    (∀ (f1 f2 : JObj) (pid : Option String) (s : SrvState),
      dremove "updated_at" f1 = dremove "updated_at" f2 →
      s.last_saved_project_hash (pid.getD "default") ≠ compute_project_hash (.obj f1) →
      (save_project_to_firestore true true (.obj f1) pid s).1 = true ∧
      (save_project_to_firestore true true (.obj f2) pid
        (save_project_to_firestore true true (.obj f1) pid s).2).1 = true ∧
      (save_project_to_firestore true true (.obj f2) pid
        (save_project_to_firestore true true (.obj f1) pid s).2).2.store_writes =
        s.store_writes + 1) := by
  refine ⟨?_, ?_, ?_⟩
  · intro f1 f2 heq
    rw [compute_project_hash_obj, compute_project_hash_obj, heq]
  · intro raw pid s wOk h hh hlast hne
    unfold save_project_to_firestore
    simp only [hh, hlast]
    simp [hne]
  · intro f1 f2 pid s heq hfresh
    have h1 : compute_project_hash (.obj f1) =
        some (sha256hex (jsonDumps (.obj (dremove "updated_at" f1)))) :=
      compute_project_hash_obj f1
    have h2 : compute_project_hash (.obj f2) =
        some (sha256hex (jsonDumps (.obj (dremove "updated_at" f1)))) := by
      rw [compute_project_hash_obj, heq]
    set H := sha256hex (jsonDumps (.obj (dremove "updated_at" f1))) with hH
    have hHlen : H.length ≠ 0 := by
      rw [hH, sha256hex_length]
      omega
    have hnolast : ¬ s.last_saved_project_hash (pid.getD "default") = some H := by
      intro hcon
      exact hfresh (by rw [h1, hcon])
    have hstep1 : save_project_to_firestore true true (.obj f1) pid s =
        (true, { s with
          store_writes := s.store_writes + 1
          last_saved_project_hash :=
            supdate s.last_saved_project_hash (pid.getD "default") H }) := by
      unfold save_project_to_firestore
      simp only [h1]
      simp [hHlen, hnolast]
    have hstep2 : save_project_to_firestore true true (.obj f2) pid
        (save_project_to_firestore true true (.obj f1) pid s).2 =
        (true, (save_project_to_firestore true true (.obj f1) pid s).2) := by
      rw [hstep1]
      unfold save_project_to_firestore
      simp only [h2]
      simp [hHlen, supdate]
    refine ⟨by rw [hstep1], by rw [hstep2], ?_⟩
    rw [hstep2, hstep1]

/-- C4 witness: persisting `{"a": 1, "updated_at": 7}` then
`{"a": 1, "updated_at": 9}` to a fresh server writes the backing store once. -/
theorem c4_witness :
    (save_project_to_firestore true true (.obj [("a", .int 1), ("updated_at", .int 9)])
      (some "room1")
      (save_project_to_firestore true true (.obj [("a", .int 1), ("updated_at", .int 7)])
        (some "room1") emptySrv).2).2.store_writes = emptySrv.store_writes + 1 := by
  exact (c4_dedup_write.2.2 [("a", .int 1), ("updated_at", .int 7)]
    [("a", .int 1), ("updated_at", .int 9)] (some "room1") emptySrv (by decide)
    (by rw [compute_project_hash_obj]; simp [emptySrv])).2.2

/-! ## Claim C1: monotonic versioning -/

/-- The version the room carries in memory: the `updated_at` of the stored
raw snapshot read the way the handlers read it (int, else 0). -/
def memVersion (pid : String) (s : SrvState) : Int :=
  intOr0 (jget0 (get_in_memory_project_raw pid s) "updated_at")

/-- One inbound `project:update` for a room: the message payload, the wall
clock, the backing-store read used by the wipe guard, and the backing-store
behavior during the save. -/
structure WsEvent where
  data : JVal
  now : Int
  existing : Option JVal
  docRef : Bool
  writeOk : Bool

/-- The server state after handling one `project:update`. -/
def wsStep (pid : String) (ev : WsEvent) (s : SrvState) : SrvState :=
  (ws_project_update pid ev.data ev.now ev.existing ev.docRef ev.writeOk s).srv

/-- The server state after a sequence of `project:update` messages. -/
def runWsUpdates (pid : String) (evs : List WsEvent) (s : SrvState) : SrvState :=
  evs.foldl (fun st ev => wsStep pid ev st) s

theorem save_preserves_mem (a b : Bool) (r : JVal) (p : Option String) (s : SrvState) :
    (save_project_to_firestore a b r p s).2.raws = s.raws ∧
    (save_project_to_firestore a b r p s).2.projects = s.projects := by
  refine ⟨?_, ?_⟩ <;>
  · unfold save_project_to_firestore compute_project_hash
    dsimp only
    split
    · rfl
    · split
      · rfl
      · split
        · split
          · rfl
          · rfl
        · rfl

theorem memVersion_congr {pid : String} {s1 s2 : SrvState}
    (h : s1.raws pid = s2.raws pid) : memVersion pid s1 = memVersion pid s2 := by
  unfold memVersion get_in_memory_project_raw
  rw [h]

/-- C1 first part: payloads accepted through the WebSocket `project:update`
path always move the in-memory version to
`max(now, previous_version + 1) > previous_version`. -/
theorem c1_ws_version (pid : String) (ev : WsEvent) (s : SrvState)
    (hb : (ws_project_update pid ev.data ev.now ev.existing ev.docRef ev.writeOk s).broadcasted
      = true) :
    memVersion pid (wsStep pid ev s) = monotonic_updated_at_ms ev.now (memVersion pid s) ∧
    memVersion pid s < memVersion pid (wsStep pid ev s) := by
  suffices hmv : memVersion pid (wsStep pid ev s) =
      monotonic_updated_at_ms ev.now (memVersion pid s) by
    refine ⟨hmv, ?_⟩
    rw [hmv]
    unfold monotonic_updated_at_ms
    have : memVersion pid s + 1 ≤ max ev.now (memVersion pid s + 1) := le_max_right _ _
    omega
  unfold wsStep
  unfold ws_project_update at hb ⊢
  generalize hex : wsExtractRaw ev.data = raw at hb ⊢
  cases raw with
  | obj fields =>
    dsimp only at hb ⊢
    generalize hv : validate_project_limits (.obj fields) = vres at hb ⊢
    cases vres with
    | some r => simp at hb
    | none =>
      dsimp only at hb ⊢
      by_cases hw : wsWipeCond ev.existing fields = true
      · rw [if_pos hw] at hb
        simp at hb
      · rw [if_neg hw] at hb ⊢
        dsimp only at hb ⊢
        rw [memVersion_congr (congrFun (save_preserves_mem _ _ _ _ _).1 pid)]
        unfold memVersion get_in_memory_project_raw set_in_memory_project supdate jget0 jgetD
        simp [dset_self, intOr0]
  | null => simp at hb
  | bool b => simp at hb
  | int n => simp at hb
  | str t => simp at hb
  | arr xs => simp at hb

/-- C1 second part: a `project:update` that is not broadcast (guard-rejected
or crashing) leaves the room's stored raw snapshot untouched. -/
theorem c1_ws_rejected_version (pid : String) (ev : WsEvent) (s : SrvState)
    (hb : (ws_project_update pid ev.data ev.now ev.existing ev.docRef ev.writeOk s).broadcasted
      = false) :
    (wsStep pid ev s).raws pid = s.raws pid := by
  unfold wsStep
  unfold ws_project_update at hb ⊢
  generalize hex : wsExtractRaw ev.data = raw at hb ⊢
  cases raw with
  | obj fields =>
    dsimp only at hb ⊢
    generalize hv : validate_project_limits (.obj fields) = vres at hb ⊢
    cases vres with
    | some r => rfl
    | none =>
      dsimp only at hb ⊢
      by_cases hw : wsWipeCond ev.existing fields = true
      · rw [if_pos hw]
      · rw [if_neg hw] at hb
        simp at hb
  | null => rfl
  | bool b => rfl
  | int n => rfl
  | str t => rfl
  | arr xs => rfl

/-- C1 (amended): on the WebSocket `project:update` path the stamped version
of every accepted update equals `max(wall_clock_ms_now, previous_version + 1)`
and is strictly greater than the room's previous version, so versions
strictly increase over any sequence of accepted WebSocket updates (and never
decrease over arbitrary sequences); the REST state endpoints instead compute
the stamp from the `updated_at` submitted in the payload, so the
strictly-greater guarantee does not extend to them (see the counterexample). -/
theorem c1_monotonic_version (pid : String) :
    (∀ (ev : WsEvent) (s : SrvState),
      (ws_project_update pid ev.data ev.now ev.existing ev.docRef ev.writeOk s).broadcasted
        = true →
      memVersion pid (wsStep pid ev s) = monotonic_updated_at_ms ev.now (memVersion pid s) ∧
      memVersion pid s < memVersion pid (wsStep pid ev s)) ∧
    (∀ (evs : List WsEvent) (s : SrvState),
      memVersion pid s ≤ memVersion pid (runWsUpdates pid evs s)) := by
  refine ⟨fun ev s hb => c1_ws_version pid ev s hb, ?_⟩
  intro evs
  induction evs with
  | nil => intro s; exact le_refl _
  | cons ev rest ih =>
    intro s
    have hstep : memVersion pid s ≤ memVersion pid (wsStep pid ev s) := by
      cases hb : (ws_project_update pid ev.data ev.now ev.existing ev.docRef ev.writeOk s).broadcasted with
      | true => exact le_of_lt (c1_ws_version pid ev s hb).2
      | false => rw [memVersion_congr (c1_ws_rejected_version pid ev s hb)]
    calc memVersion pid s ≤ memVersion pid (wsStep pid ev s) := hstep
      _ ≤ memVersion pid (runWsUpdates pid rest (wsStep pid ev s)) := ih _
      _ = memVersion pid (runWsUpdates pid (ev :: rest) s) := rfl

/-- A client-forged future timestamp submitted to the per-project REST state
endpoint. -/
def c1_forged_payload : JVal :=
  .obj [("documents", .arr [.obj [("id", .str "d1"), ("text", .str "hello")]]),
        ("updated_at", .int 1000000000000000)]

/-- The same content submitted afterwards without a timestamp. -/
def c1_plain_payload : JVal :=
  .obj [("documents", .arr [.obj [("id", .str "d1"), ("text", .str "hello")]])]

def c1_first : RestResult := rest_set_state "p" c1_forged_payload 1000 none true true emptySrv

def c1_second : RestResult :=
  rest_set_state "p" c1_plain_payload 2000 (some (get_in_memory_project_raw "p" c1_first.srv))
    true true c1_first.srv

/-- C1 counterexample: the REST state endpoint stamps
`max(now, submitted + 1)` from the *client-submitted* `updated_at`, not from
the room's previous version; after an accepted write stamped
`10^15 + 1` (forged clock), a second accepted write is stamped `2000`, which
is neither `max(now, previous_version + 1)` nor greater than the previous
version. -/
theorem c1_counterexample :
    c1_first.status = RestStatus.ok 1000000000000001 ∧
    c1_second.status = RestStatus.ok 2000 ∧
    memVersion "p" c1_first.srv = 1000000000000001 ∧
    memVersion "p" c1_second.srv = 2000 ∧
    ¬ (memVersion "p" c1_first.srv < memVersion "p" c1_second.srv) ∧
    memVersion "p" c1_second.srv ≠
      max 2000 (memVersion "p" c1_first.srv + 1) := by
  decide

def c1_event : WsEvent :=
  ⟨.obj [("project_raw", .obj [("documents", .arr [.obj [("id", .str "d1"), ("text", .str "hi")]])])],
   500, none, true, true⟩

/-- C1 witness: an accepted WebSocket update from a fresh room is stamped
`max(500, 0 + 1) = 500`, strictly above the previous version `0`. -/
theorem c1_witness :
    memVersion "p" (wsStep "p" c1_event emptySrv) =
      monotonic_updated_at_ms c1_event.now (memVersion "p" emptySrv) ∧
    memVersion "p" emptySrv < memVersion "p" (wsStep "p" c1_event emptySrv) :=
  (c1_monotonic_version "p").1 c1_event emptySrv (by decide)

/-! ## Claim C10: rehydration clobbers unsaved in-memory state -/

/-- A room whose in-memory snapshot holds work that was never persisted. -/
def c10_before : SrvState :=
  set_in_memory_project "p"
    (.obj [("documents", .arr [.obj [("id", .str "d1"), ("text", .str "unsaved work")]])])
    emptySrv

/-- C10 counterexample: when the backing store returns the persisted record
`{}` (a falsy dict), `ensure_project_loaded` does not replace the in-memory
snapshots at all, contradicting the claim's "unconditionally replaced by that
record": the raw snapshot and the hash cache keep their old values. -/
theorem c10_counterexample :
    (ensure_project_loaded "p" (some (.obj [])) c10_before).raws "p" ≠ some (.obj []) ∧
    (ensure_project_loaded "p" (some (.obj [])) c10_before).raws "p" = c10_before.raws "p" ∧
    (ensure_project_loaded "p" (some (.obj [])) c10_before).last_saved_project_hash "p" =
      c10_before.last_saved_project_hash "p" := by
  decide

/-- C10 (amended): whenever the backing store returns a non-empty (truthy)
persisted record for the room, every connection join and every read of the
default project's state endpoint unconditionally replaces the room's
in-memory raw and normalized snapshots with that record and resets the
last-persisted-hash cache to its hash, discarding whatever was in memory
before. -/
theorem c10_rehydration (p : JVal) (h : jTruthy p = true) :
    (∀ (pid : String) (s : SrvState),
      (ensure_project_loaded pid (some p) s).raws pid = some p ∧
      (ensure_project_loaded pid (some p) s).projects pid = some (normalize_project_state p) ∧
      (ensure_project_loaded pid (some p) s).last_saved_project_hash pid =
        compute_project_hash p) ∧
    (∀ s : SrvState,
      (get_project_state (some p) s).2.1 = some p ∧
      (get_project_state (some p) s).2.2 = normalize_project_state p) := by
  have hmain : ∀ (pid : String) (s : SrvState),
      (ensure_project_loaded pid (some p) s).raws pid = some p ∧
      (ensure_project_loaded pid (some p) s).projects pid = some (normalize_project_state p) ∧
      (ensure_project_loaded pid (some p) s).last_saved_project_hash pid =
        compute_project_hash p := by
    intro pid s
    have hh := sha256hex_length_ne_zero (jsonDumps (sanitizeUpdatedAt p))
    unfold ensure_project_loaded compute_project_hash
    dsimp only
    rw [if_pos h]
    dsimp only
    rw [if_pos hh]
    simp [set_in_memory_project, supdate]
  refine ⟨hmain, ?_⟩
  intro s
  obtain ⟨h1, h2, _⟩ := hmain DEFAULT_PROJECT_ID s
  unfold get_project_state get_in_memory_project_raw get_in_memory_project
  dsimp only
  rw [h1, h2]
  simp [h]

/-- C10 witness: a concrete truthy record replaces a fresh room's snapshots. -/
theorem c10_witness :
    (ensure_project_loaded "q"
      (some (.obj [("documents", .arr [.obj [("id", .str "d9")]])])) emptySrv).raws "q" =
      some (.obj [("documents", .arr [.obj [("id", .str "d9")]])]) :=
  ((c10_rehydration (.obj [("documents", .arr [.obj [("id", .str "d9")]])])
    (by decide)).1 "q" emptySrv).1

/-! ## Claim C2: guard rejection is atomic and sender-only -/

/-- C2: when a WebSocket `project:update` is rejected by a guard — a
size-limit error, or the content-wipe guard (persisted snapshot with positive
estimated document-content characters, incoming payload with zero) — the
handler's entire effect is one typed error reply to the sending connection:
nothing is broadcast, the in-memory snapshots are untouched, the hash cache
and backing store are untouched, and the handler does not raise. -/
theorem c2_guard_rejection (pid : String) (data : JVal) (now : Int) (existing : Option JVal)
    (docRef writeOk : Bool) (s : SrvState) (fields : JObj)
    (hf : wsExtractRaw data = .obj fields)
    (hrej : validate_project_limits (.obj fields) ≠ none ∨ wsWipeCond existing fields = true) :
    ws_project_update pid data now existing docRef writeOk s =
      ⟨some (match validate_project_limits (.obj fields) with
             | some r => r
             | none => "content_wipe"), false, s, false⟩ := by
  unfold ws_project_update
  rw [hf]
  dsimp only
  cases hv : validate_project_limits (.obj fields) with
  | some r => rfl
  | none =>
    dsimp only
    rcases hrej with hne | hw
    · exact absurd hv hne
    · rw [if_pos hw]

def c2_data : JVal := .obj [("project_raw", .obj [("documents", .arr [])])]

def c2_existing : JVal :=
  .obj [("documents", .arr [.obj [("id", .str "d"), ("text", .str "real work here")]])]

/-- C2 witness: an empty-documents update against a persisted snapshot with
real document content is answered by `content_wipe` to the sender only, with
no state change. -/
theorem c2_witness :
    ws_project_update "p" c2_data 700 (some c2_existing) true true emptySrv =
      ⟨some "content_wipe", false, emptySrv, false⟩ := by
  exact c2_guard_rejection "p" c2_data 700 (some c2_existing) true true emptySrv
    [("documents", .arr [])] (by decide) (Or.inr (by decide))

/-! ## Claim C5: anti-shrink guard on the per-project REST path -/

/-- The stamp the REST path computes from the submitted payload. -/
def restStamp (fields0 : JObj) (now : Int) : Int :=
  monotonic_updated_at_ms now (intOr0 (fget fields0 "updated_at"))

/-- The incoming fields after the REST path stamps `updated_at`. -/
def restStampedFields (fields0 : JObj) (now : Int) : JObj :=
  dset "updated_at" (.int (restStamp fields0 now)) fields0

theorem utf8Char_length_pos (c : Char) : 1 ≤ (utf8Char c).length := by
  unfold utf8Char
  dsimp only
  split_ifs <;> simp

theorem length_le_utf8Bytes_length (s : String) : s.length ≤ (utf8Bytes s).length := by
  unfold utf8Bytes
  have main : ∀ l : List Char, l.length ≤ ((l.map utf8Char).flatten).length := by
    intro l
    induction l with
    | nil => simp
    | cons c cs ih =>
      rw [List.map_cons, List.flatten_cons, List.length_append, List.length_cons]
      have := utf8Char_length_pos c
      omega
  exact main s.toList

theorem length_le_estimate (v : JVal) : (jsonDumps v).length ≤ estimate_project_bytes v :=
  length_le_utf8Bytes_length (jsonDumps v)

theorem escChar_length_pos (c : Char) : 1 ≤ (escChar c).length := by
  unfold escChar
  dsimp only
  split_ifs <;> first
    | decide
    | exact le_refl 1
    | simp [String.length_append, hex4_length]

theorem one_le_sum {l : List Nat} (h : ∀ x ∈ l, 1 ≤ x) : l.length ≤ l.sum := by
  induction l with
  | nil => simp
  | cons x xs ih =>
    rw [List.length_cons, List.sum_cons]
    have hx := h x (List.mem_cons_self _ _)
    have := ih (fun y hy => h y (List.mem_cons_of_mem _ hy))
    omega

theorem length_le_jsonQuote_length (s : String) : s.length ≤ (jsonQuote s).length := by
  unfold jsonQuote String.join
  rw [String.length_append, String.length_append, length_foldl_append, List.map_map]
  have hone : ∀ x ∈ (s.toList.map (String.length ∘ escChar)), 1 ≤ x := by
    intro x hx
    rcases List.mem_map.mp hx with ⟨c, _, hc⟩
    rw [← hc]
    exact escChar_length_pos c
  have := one_le_sum hone
  rw [List.length_map] at this
  have hs : s.length = s.toList.length := rfl
  omega

def c5_padding : String := String.mk (List.replicate 1700 'a')

def c5_existing : JObj := [("padding", .str c5_padding), ("updated_at", .int 1)]

theorem c5_existing_big :
    NONEMPTY_PROJECT_MIN_BYTES ≤ estimate_project_bytes (.obj c5_existing) := by
  have hsort : sortJ (.obj c5_existing) = .obj c5_existing := by
    unfold c5_existing
    simp [sortJ, sortJFields, sortPairs, insertPair,
      show strLt "padding" "updated_at" = true from by decide]
  have hdump : jsonDumps (.obj c5_existing) =
      "\x7b" ++ (jsonQuote "padding" ++ ":" ++ dumpsSorted (.str c5_padding) ++ "," ++
        (jsonQuote "updated_at" ++ ":" ++ dumpsSorted (.int 1))) ++ "\x7d" := by
    unfold jsonDumps
    rw [hsort]
    rfl
  have hq : c5_padding.length ≤ (jsonDumps (.obj c5_existing)).length := by
    rw [hdump]
    simp only [String.length_append]
    have h1 : c5_padding.length ≤ (dumpsSorted (.str c5_padding)).length :=
      length_le_jsonQuote_length c5_padding
    omega
  have hpad : c5_padding.length = 1700 := by
    unfold c5_padding
    show (List.replicate 1700 'a').length = 1700
    simp
  have := length_le_estimate (.obj c5_existing)
  unfold NONEMPTY_PROJECT_MIN_BYTES
  omega

def c5_incoming : JVal := .obj [("updated_at", .int 5)]

def c5_result : RestResult :=
  rest_set_state "p" c5_incoming 1000 (some (.obj c5_existing)) true true emptySrv

/-- C5 counterexample: an existing persisted record of more than 1700 bytes
(above the substantial-size threshold 1600) that is itself effectively empty,
overwritten without the override flag by an effectively-empty 18-byte payload
(below the small-payload threshold 800): the claim demands an
`empty_overwrite` refusal, but the write is accepted. -/
theorem c5_counterexample :
    NONEMPTY_PROJECT_MIN_BYTES ≤ estimate_project_bytes (.obj c5_existing) ∧
    jTruthy (jget0 c5_incoming "force") = false ∧
    is_project_effectively_empty (restStampedFields [("updated_at", .int 5)] 1000) = true ∧
    estimate_project_bytes (.obj (restStampedFields [("updated_at", .int 5)] 1000)) ≤
      EMPTY_OVERWRITE_MAX_BYTES ∧
    restExtractRaw c5_incoming = .obj [("updated_at", .int 5)] ∧
    c5_result.status = RestStatus.ok 1000 := by
  refine ⟨c5_existing_big, by decide, by decide, by decide, by decide, by decide⟩

theorem save_true_true_fst (r : JVal) (p : Option String) (s : SrvState) :
    (save_project_to_firestore true true r p s).1 = true := by
  unfold save_project_to_firestore compute_project_hash
  dsimp only
  rw [if_neg (by simp : ¬ (true : Bool) = false)]
  split
  · rfl
  · rfl

/-- C5 (amended): on the per-project REST write path without the override
flag, if the existing persisted record is at least the substantial-size
threshold **and is not itself effectively empty**, and the stamped incoming
payload is effectively empty or at most the small-payload threshold, the
write is refused with reason `empty_overwrite` and nothing changes; the same
write with the override flag set (and a working backing store) is accepted. -/
theorem c5_anti_shrink (pid : String) (payload : JVal) (now : Int) (fields0 ef : JObj)
    (hf : restExtractRaw payload = .obj fields0)
    (hforce : jTruthy (jget0 payload "force") = false)
    (hlim : validate_project_limits (.obj (restStampedFields fields0 now)) = none)
    (hbig : NONEMPTY_PROJECT_MIN_BYTES ≤ estimate_project_bytes (.obj ef))
    (hsmall : is_project_effectively_empty (restStampedFields fields0 now) = true ∨
      estimate_project_bytes (.obj (restStampedFields fields0 now)) ≤ EMPTY_OVERWRITE_MAX_BYTES)
    (hnonempty : is_project_effectively_empty ef = false) :
    (∀ (docRef writeOk : Bool) (s : SrvState),
      rest_set_state pid payload now (some (.obj ef)) docRef writeOk s =
        ⟨.refused "empty_overwrite", s⟩) ∧
    (∀ (payloadF : JVal) (s : SrvState),
      restExtractRaw payloadF = .obj fields0 →
      jTruthy (jget0 payloadF "force") = true →
      (rest_set_state pid payloadF now (some (.obj ef)) true true s).status =
        RestStatus.ok (restStamp fields0 now)) := by
  unfold restStampedFields restStamp at hlim hsmall
  have hguard : rest_guard_refusal false (dset "updated_at"
      (.int (monotonic_updated_at_ms now (intOr0 (fget fields0 "updated_at")))) fields0)
      (some (.obj ef)) = some "empty_overwrite" := by
    unfold rest_guard_refusal
    rw [if_pos (by simp)]
    dsimp only
    rw [if_pos]
    simp only [Bool.and_eq_true, Bool.or_eq_true, decide_eq_true_eq]
    refine ⟨?_, by simp [hnonempty]⟩
    rcases hsmall with hsl | hsr
    · exact Or.inl (Or.inl hsl)
    · exact Or.inr (by simp [hbig, hsr])
  constructor
  · intro docRef writeOk s
    unfold rest_set_state
    rw [hf]
    try dsimp only
    rw [hforce]
    try dsimp only
    rw [hlim]
    try dsimp only
    rw [hguard]
  · intro payloadF s hfF hforceF
    unfold rest_set_state
    rw [hfF]
    try dsimp only
    rw [hforceF]
    try dsimp only
    rw [hlim]
    try dsimp only
    have hnoguard : rest_guard_refusal true (dset "updated_at"
        (.int (monotonic_updated_at_ms now (intOr0 (fget fields0 "updated_at")))) fields0)
        (some (.obj ef)) = none := by
      unfold rest_guard_refusal
      rw [if_neg (by simp)]
    rw [hnoguard]
    try dsimp only
    rw [save_true_true_fst]
    rw [if_neg (show ¬ ¬ ((true : Bool) = true) from fun h => h rfl)]
    try dsimp only
    unfold restStamp
    rfl

def c5w_padding : String := String.mk (List.replicate 1700 'b')

def c5w_existing : JObj := [("padding", .str c5w_padding), ("theoryHtml", .str "notes")]

theorem c5w_existing_big :
    NONEMPTY_PROJECT_MIN_BYTES ≤ estimate_project_bytes (.obj c5w_existing) := by
  have hsort : sortJ (.obj c5w_existing) = .obj c5w_existing := by
    unfold c5w_existing
    simp [sortJ, sortJFields, sortPairs, insertPair,
      show strLt "padding" "theoryHtml" = true from by decide]
  have hdump : jsonDumps (.obj c5w_existing) =
      "\x7b" ++ (jsonQuote "padding" ++ ":" ++ dumpsSorted (.str c5w_padding) ++ "," ++
        (jsonQuote "theoryHtml" ++ ":" ++ dumpsSorted (.str "notes"))) ++ "\x7d" := by
    unfold jsonDumps
    rw [hsort]
    rfl
  have hq : c5w_padding.length ≤ (jsonDumps (.obj c5w_existing)).length := by
    rw [hdump]
    simp only [String.length_append]
    have h1 : c5w_padding.length ≤ (dumpsSorted (.str c5w_padding)).length :=
      length_le_jsonQuote_length c5w_padding
    omega
  have hpad : c5w_padding.length = 1700 := by
    unfold c5w_padding
    show (List.replicate 1700 'b').length = 1700
    simp
  have := length_le_estimate (.obj c5w_existing)
  unfold NONEMPTY_PROJECT_MIN_BYTES
  omega

/-- C5 witness: a substantial, non-empty existing record and a tiny incoming
payload without the override flag yield the `empty_overwrite` refusal with no
state change. -/
theorem c5_witness :
    rest_set_state "w" (.obj [("updated_at", .int 4)]) 900 (some (.obj c5w_existing))
      true true emptySrv = ⟨.refused "empty_overwrite", emptySrv⟩ := by
  exact (c5_anti_shrink "w" (.obj [("updated_at", .int 4)]) 900 [("updated_at", .int 4)]
    c5w_existing (by decide) (by decide) (by decide) c5w_existing_big
    (Or.inl (by decide)) (by decide)).1 true true emptySrv

/-! ## Claim C9: procedural name generation -/

theorem tryRandomNames_spec :
    ∀ (ps : List (Nat × Nat)) (existing : List String) (r : String),
      tryRandomNames ps existing = some r →
      r ∉ existing ∧ ∃ p ∈ ps, r = pickToName p := by
  intro ps
  induction ps with
  | nil => intro existing r h; simp [tryRandomNames] at h
  | cons p rest ih =>
    intro existing r h
    unfold tryRandomNames at h
    by_cases hmem : pickToName p ∈ existing
    · rw [if_pos hmem] at h
      obtain ⟨h1, q, hq, hr⟩ := ih existing r h
      exact ⟨h1, q, List.mem_cons_of_mem _ hq, hr⟩
    · rw [if_neg hmem] at h
      cases h
      exact ⟨hmem, p, List.mem_cons_self _ _, rfl⟩

theorem findSuffixAux_some (existing : List String) :
    ∀ (fuel start k : Nat), findSuffixAux existing fuel start = some k →
      suffixName k ∉ existing ∧ start ≤ k ∧
      ∀ t, start ≤ t → t < k → suffixName t ∈ existing := by
  intro fuel
  induction fuel with
  | zero => intro start k h; simp [findSuffixAux] at h
  | succ f ih =>
    intro start k h
    unfold findSuffixAux at h
    by_cases hmem : suffixName start ∈ existing
    · rw [if_pos hmem] at h
      obtain ⟨h1, h2, h3⟩ := ih (start + 1) k h
      refine ⟨h1, by omega, ?_⟩
      intro t ht1 ht2
      by_cases hts : t = start
      · rw [hts]; exact hmem
      · exact h3 t (by omega) ht2
    · rw [if_neg hmem] at h
      cases h
      exact ⟨hmem, le_refl _, fun t ht1 ht2 => absurd (lt_of_le_of_lt ht1 ht2) (lt_irrefl _)⟩

theorem findSuffixAux_none (existing : List String) :
    ∀ (fuel start : Nat), findSuffixAux existing fuel start = none →
      ∀ i, i < fuel → suffixName (start + i) ∈ existing := by
  intro fuel
  induction fuel with
  | zero => intro start h i hi; omega
  | succ f ih =>
    intro start h i hi
    unfold findSuffixAux at h
    by_cases hmem : suffixName start ∈ existing
    · rw [if_pos hmem] at h
      cases i with
      | zero => simpa using hmem
      | succ j =>
        have := ih (start + 1) h j (by omega)
        have harith : start + 1 + j = start + (j + 1) := by omega
        rw [harith] at this
        exact this
    · rw [if_neg hmem] at h
      cases h

theorem string_toList_append (a b : String) : (a ++ b).toList = a.toList ++ b.toList := by
  simp [String.toList]

theorem string_eq_of_toList_eq {a b : String} (h : a.toList = b.toList) : a = b := by
  cases a with
  | mk da =>
    cases b with
    | mk db =>
      exact congrArg String.mk (by simpa [String.toList] using h)

theorem suffixName_inj {a b : Nat} (h : suffixName a = suffixName b) : a = b := by
  unfold suffixName at h
  have hl := congrArg String.toList h
  rw [string_toList_append, string_toList_append, string_toList_append,
    string_toList_append] at hl
  have h2 := List.append_cancel_left hl
  exact natRepr_inj (string_eq_of_toList_eq h2)

theorem findSuffixAux_total (existing : List String) (start : Nat) :
    findSuffixAux existing (existing.length + 1) start ≠ none := by
  intro hnone
  have hall := findSuffixAux_none existing (existing.length + 1) start hnone
  set L := (List.range (existing.length + 1)).map (fun i => suffixName (start + i)) with hL
  have hnodup : L.Nodup := by
    rw [hL]
    refine List.Nodup.map ?_ (List.nodup_range _)
    intro x y hxy
    have := suffixName_inj hxy
    omega
  have hsub : ∀ x ∈ L, x ∈ existing := by
    intro x hx
    rw [hL] at hx
    rcases List.mem_map.mp hx with ⟨i, hi, hix⟩
    rw [← hix]
    exact hall i (List.mem_range.mp hi)
  have hcard1 : L.toFinset.card = existing.length + 1 := by
    rw [List.toFinset_card_of_nodup hnodup, hL, List.length_map, List.length_range]
  have hcard2 : L.toFinset ⊆ existing.toFinset := by
    intro x hx
    rw [List.mem_toFinset] at hx ⊢
    exact hsub x hx
  have := Finset.card_le_card hcard2
  have := List.toFinset_card_le existing
  omega

/-- C9: for any avoided set of live names and any stream of random picks, the
generated name avoids every name in the set; it is either an adjective+noun
pair from the two word lists (random phase) or, when every random attempt
collides, the deterministic base name extended with the smallest free numeric
suffix (at least 2); the function is total. -/
theorem c9_generate_user_name (picks : List (Nat × Nat)) (existing : List String) :
    generate_user_name picks existing ∉ existing ∧
    ((∃ i j, i < first_parts.length ∧ j < second_parts.length ∧
        generate_user_name picks existing =
          first_parts.getD i "" ++ " " ++ second_parts.getD j "") ∨
      (∃ k, 2 ≤ k ∧ generate_user_name picks existing = suffixName k ∧
        ∀ t, 2 ≤ t → t < k → suffixName t ∈ existing)) := by
  unfold generate_user_name
  cases htry : tryRandomNames (picks.take name_max_attempts) existing with
  | some r =>
    obtain ⟨hnot, p, _, hshape⟩ := tryRandomNames_spec _ existing r htry
    refine ⟨hnot, Or.inl ?_⟩
    refine ⟨p.1 % first_parts.length, p.2 % second_parts.length, ?_, ?_, ?_⟩
    · exact Nat.mod_lt _ (by decide)
    · exact Nat.mod_lt _ (by decide)
    · exact hshape
  | none =>
    cases hfind : findSuffixAux existing (existing.length + 1) 2 with
    | none => exact absurd hfind (findSuffixAux_total existing 2)
    | some k =>
      obtain ⟨hnot, hge, hmin⟩ := findSuffixAux_some existing _ 2 k hfind
      exact ⟨hnot, Or.inr ⟨k, hge, rfl, hmin⟩⟩

/-! ## Claim C3: at most one live connection per identity per room -/

/-- The well-formedness of the `users` registry: distinct keys, and every
user dict's `id` field equals its key. -/
def UsersWF (s : RoomState) : Prop :=
  (dkeys s.users).Nodup ∧ ∀ p ∈ s.users, p.2.id = p.1

theorem usersWF_dset {l : List (String × WUser)} (h1 : (dkeys l).Nodup)
    (h2 : ∀ p ∈ l, p.2.id = p.1) {k : String} {v : WUser} (hv : v.id = k) :
    (dkeys (dset k v l)).Nodup ∧ ∀ p ∈ dset k v l, p.2.id = p.1 := by
  refine ⟨dkeys_nodup_dset h1, ?_⟩
  intro p hp
  rcases mem_dset hp with h | h
  · rw [h]; exact hv
  · exact h2 p h

theorem connect_users (ws : Conn) (cid : Option String) (uuid : String)
    (picks : List (Nat × Nat)) (s : RoomState) (hwf : UsersWF s) :
    UsersWF (connect ws cid uuid picks s).1 := by
  obtain ⟨h1, h2⟩ := hwf
  unfold connect
  cases cid with
  | none =>
    dsimp only
    exact usersWF_dset h1 h2 rfl
  | some cid =>
    dsimp only
    cases hcu : dlookup cid s.clientUsers with
    | none =>
      dsimp only
      exact usersWF_dset h1 h2 rfl
    | some euid =>
      dsimp only
      cases hu : dlookup euid s.users with
      | none =>
        cases hcn : dlookup euid s.userConns with
        | none =>
          dsimp only
          exact usersWF_dset h1 h2 rfl
        | some old =>
          dsimp only
          exact usersWF_dset h1 h2 rfl
      | some eu =>
        have heu : eu.id = euid := h2 (euid, eu) (dlookup_mem hu)
        cases hcn : dlookup euid s.userConns with
        | none =>
          dsimp only
          refine usersWF_dset h1 h2 ?_
          dsimp only
          split <;> split <;> simp [heu]
        | some old =>
          dsimp only
          refine usersWF_dset h1 h2 ?_
          dsimp only
          split <;> split <;> simp [heu]

theorem disconnect_users_cases (ws : Conn) (s : RoomState) :
    (disconnect ws s).users = s.users ∨
    ∃ uid, (disconnect ws s).users = dremove uid s.users := by
  unfold disconnect
  dsimp only
  generalize dlookup ws s.connUsers = r1
  cases r1 with
  | none => left; rfl
  | some uid =>
    dsimp only
    generalize dlookup uid s.users = r2
    cases r2 with
    | none => left; rfl
    | some u =>
      dsimp only
      generalize u.client_id = r3
      cases r3 with
      | none => right; exact ⟨uid, rfl⟩
      | some cid =>
        dsimp only
        split
        · right; exact ⟨uid, rfl⟩
        · right; exact ⟨uid, rfl⟩

theorem disconnect_users (ws : Conn) (s : RoomState) (hwf : UsersWF s) :
    UsersWF (disconnect ws s) := by
  obtain ⟨h1, h2⟩ := hwf
  rcases disconnect_users_cases ws s with h | ⟨uid, h⟩
  · exact ⟨h ▸ h1, h ▸ h2⟩
  · rw [UsersWF, h]
    exact ⟨dkeys_nodup_dremove h1, fun p hp => h2 p (mem_dremove hp)⟩

theorem rename_users (uid : String) (nm : String) (s : RoomState) (hwf : UsersWF s) :
    UsersWF (presence_rename uid nm s) := by
  obtain ⟨h1, h2⟩ := hwf
  unfold presence_rename
  dsimp only
  split
  · generalize hu : dlookup uid s.users = r
    cases r with
    | none => exact ⟨h1, h2⟩
    | some u =>
      dsimp only
      exact usersWF_dset h1 h2 (h2 (uid, u) (dlookup_mem hu))
  · exact ⟨h1, h2⟩

theorem reach_usersWF {s : RoomState} (h : Reach s) : UsersWF s := by
  induction h with
  | init => exact ⟨by simp [RoomState.empty, dkeys], by simp [RoomState.empty]⟩
  | step_connect s ws cid uuid picks _ _ _ _ _ _ _ _ ih => exact connect_users _ _ _ _ _ ih
  | step_disconnect s ws _ ih => exact disconnect_users _ _ ih
  | step_rename s uid nm _ ih => exact rename_users _ _ _ ih

/-- C3: (a) joining with a reattachment key whose identity still has an open
connection closes exactly that old connection with reason "replaced",
removes it from the room's registries, and binds the new socket to the same
identity; (b) the member list of any reachable room never contains the same
identity twice. -/
theorem c3_one_connection_per_identity :
    (∀ (s : RoomState) (ws old : Conn) (cid euid : String) (eu : WUser)
        (uuid : String) (picks : List (Nat × Nat)),
      dlookup cid s.clientUsers = some euid →
      dlookup euid s.users = some eu →
      dlookup euid s.userConns = some old →
      s.connections.Nodup →
      ws ≠ old →
      (connect ws (some cid) uuid picks s).2.1 = [(old, "replaced")] ∧
      old ∉ (connect ws (some cid) uuid picks s).1.connections ∧
      dlookup old (connect ws (some cid) uuid picks s).1.connUsers = none ∧
      ws ∈ (connect ws (some cid) uuid picks s).1.connections ∧
      dlookup ws (connect ws (some cid) uuid picks s).1.connUsers = some euid ∧
      dlookup euid (connect ws (some cid) uuid picks s).1.userConns = some ws) ∧
    (∀ s : RoomState, Reach s → ((get_users s).map WUser.id).Nodup) := by
  constructor
  · intro s ws old cid euid eu uuid picks hcid hu hconn hnodup hne
    unfold connect
    dsimp only
    rw [hcid]
    dsimp only
    rw [hu, hconn]
    dsimp only
    refine ⟨rfl, ?_, ?_, ?_, ?_, ?_⟩
    · intro hmem
      rcases List.mem_append.mp hmem with h | h
      · exact hnodup.not_mem_erase h
      · rw [List.mem_singleton] at h
        exact hne h.symm
    · rw [dset_other (Ne.symm hne) _ _, dremove_self]
    · exact List.mem_append.mpr (Or.inr (List.mem_singleton.mpr rfl))
    · exact dset_self _ _ _
    · exact dset_self _ _ _
  · intro s hs
    obtain ⟨h1, h2⟩ := reach_usersWF hs
    unfold get_users
    rw [List.map_map]
    have : s.users.map (WUser.id ∘ Prod.snd) = dkeys s.users := by
      apply List.map_congr_left
      intro p hp
      exact h2 p hp
    rw [this]
    exact h1

def c3w_base : RoomState := (connect 1 (some "key") "u1" [] RoomState.empty).1

/-- C3 witness: a second tab joining with the same reattachment key replaces
the first socket, and the resulting reachable room lists no duplicate
identities. -/
theorem c3_witness :
    ((connect 2 (some "key") "u2" [] c3w_base).2.1 = [(1, "replaced")] ∧
      (1 : Conn) ∉ (connect 2 (some "key") "u2" [] c3w_base).1.connections ∧
      dlookup 2 (connect 2 (some "key") "u2" [] c3w_base).1.connUsers = some "u1") ∧
    ((get_users c3w_base).map WUser.id).Nodup := by
  have hmain := (c3_one_connection_per_identity.1 c3w_base 2 1 "key" "u1"
    ⟨"u1", "Busiga Räven 2", "#2563EB", some "key"⟩ "u2" []
    (by decide) (by decide) (by decide) (by decide) (by decide))
  refine ⟨⟨hmain.1, hmain.2.1, hmain.2.2.2.2.1⟩, ?_⟩
  refine c3_one_connection_per_identity.2 c3w_base ?_
  exact Reach.step_connect RoomState.empty 1 (some "key") "u1" []
    Reach.init (by decide) (by decide) (fun u => by simp [RoomState.empty, dlookup])
    (by decide) (by decide) (fun c => by simp [RoomState.empty, dlookup])
    (fun c => by simp [RoomState.empty, dlookup])

/-! ## Claim C7: broadcast fault isolation -/

/-- Consistency of a room's registries, as maintained by the running server:
no duplicate sockets or keys, and the socket→identity and identity→socket
maps mirror each other with identities present in `users`. -/
def invC7 (s : RoomState) : Prop :=
  s.connections.Nodup ∧
  (dkeys s.connUsers).Nodup ∧
  (dkeys s.userConns).Nodup ∧
  (dkeys s.users).Nodup ∧
  (∀ p ∈ s.connUsers, dlookup p.2 s.userConns = some p.1 ∧ dhasKey p.2 s.users = true) ∧
  (∀ p ∈ s.userConns, dlookup p.2 s.connUsers = some p.1)

instance (s : RoomState) : Decidable (invC7 s) := by
  unfold invC7
  infer_instance

theorem disconnect_connections_eq (ws : Conn) (s : RoomState) :
    (disconnect ws s).connections = s.connections.erase ws := by
  unfold disconnect
  dsimp only
  generalize dlookup ws s.connUsers = r1
  cases r1 with
  | none => rfl
  | some uid =>
    dsimp only
    generalize dlookup uid s.users = r2
    cases r2 with
    | none => rfl
    | some u =>
      dsimp only
      generalize u.client_id = r3
      cases r3 with
      | none => rfl
      | some cid =>
        dsimp only
        split <;> rfl

theorem disconnect_connUsers_eq (ws : Conn) (s : RoomState) :
    (disconnect ws s).connUsers = dremove ws s.connUsers := by
  unfold disconnect
  dsimp only
  generalize dlookup ws s.connUsers = r1
  cases r1 with
  | none => rfl
  | some uid =>
    dsimp only
    generalize dlookup uid s.users = r2
    cases r2 with
    | none => rfl
    | some u =>
      dsimp only
      generalize u.client_id = r3
      cases r3 with
      | none => rfl
      | some cid =>
        dsimp only
        split <;> rfl

theorem disconnect_userConns_eq (ws : Conn) (s : RoomState) :
    (disconnect ws s).userConns =
      (match dlookup ws s.connUsers with
       | none => s.userConns
       | some uid =>
         match dlookup uid s.users with
         | none => s.userConns
         | some _ => dremove uid s.userConns) := by
  unfold disconnect
  dsimp only
  generalize dlookup ws s.connUsers = r1
  cases r1 with
  | none => rfl
  | some uid =>
    dsimp only
    generalize dlookup uid s.users = r2
    cases r2 with
    | none => rfl
    | some u =>
      dsimp only
      generalize u.client_id = r3
      cases r3 with
      | none => rfl
      | some cid =>
        dsimp only
        split <;> rfl

theorem disconnect_users_eq (ws : Conn) (s : RoomState) :
    (disconnect ws s).users =
      (match dlookup ws s.connUsers with
       | none => s.users
       | some uid =>
         match dlookup uid s.users with
         | none => s.users
         | some _ => dremove uid s.users) := by
  unfold disconnect
  dsimp only
  generalize dlookup ws s.connUsers = r1
  cases r1 with
  | none => rfl
  | some uid =>
    dsimp only
    generalize dlookup uid s.users = r2
    cases r2 with
    | none => rfl
    | some u =>
      dsimp only
      generalize u.client_id = r3
      cases r3 with
      | none => rfl
      | some cid =>
        dsimp only
        split <;> rfl

theorem mem_dremove_ne {K V : Type} [DecidableEq K] {k : K} {p : K × V} {l : List (K × V)}
    (h : p ∈ dremove k l) : ¬ p.1 = k := by
  induction l with
  | nil => simp [dremove] at h
  | cons q rest ih =>
    simp only [dremove] at h
    by_cases hq : q.1 = k
    · rw [if_pos hq] at h
      exact ih h
    · rw [if_neg hq] at h
      rcases List.mem_cons.mp h with h1 | h2
      · rw [h1]; exact hq
      · exact ih h2

/-- The failing connection is removed from all of the room's registries. -/
def RemovedFrom (c : Conn) (s : RoomState) : Prop :=
  c ∉ s.connections ∧
  dlookup c s.connUsers = none ∧
  ∀ u, dlookup u s.userConns ≠ some c

theorem disconnect_removes (c : Conn) (s : RoomState) (hinv : invC7 s) :
    RemovedFrom c (disconnect c s) := by
  obtain ⟨hc, _, _, _, hB2, hB3⟩ := hinv
  refine ⟨?_, ?_, ?_⟩
  · rw [disconnect_connections_eq]
    exact hc.not_mem_erase
  · rw [disconnect_connUsers_eq]
    exact dremove_self _ _
  · rw [disconnect_userConns_eq]
    cases hcu : dlookup c s.connUsers with
    | none =>
      intro u h
      have := hB3 (u, c) (dlookup_mem h)
      rw [hcu] at this
      cases this
    | some uid =>
      dsimp only
      have hk := (hB2 (c, uid) (dlookup_mem hcu)).2
      cases hu : dlookup uid s.users with
      | none =>
        unfold dhasKey at hk
        rw [hu] at hk
        simp at hk
      | some u =>
        try rw [hu]
        dsimp only
        intro u2 h
        by_cases h2 : u2 = uid
        · rw [h2, dremove_self] at h
          cases h
        · rw [dremove_other h2] at h
          have := hB3 (u2, c) (dlookup_mem h)
          rw [hcu] at this
          cases this
          exact h2 rfl

theorem disconnect_invC7 (d : Conn) (s : RoomState) (hinv : invC7 s) :
    invC7 (disconnect d s) := by
  obtain ⟨hc, hcu, huc, hus, hB2, hB3⟩ := hinv
  refine ⟨?_, ?_, ?_, ?_, ?_, ?_⟩
  · rw [disconnect_connections_eq]
    exact hc.erase d
  · rw [disconnect_connUsers_eq]
    exact dkeys_nodup_dremove hcu
  · rw [disconnect_userConns_eq]
    cases dlookup d s.connUsers with
    | none => exact huc
    | some uid =>
      dsimp only
      cases dlookup uid s.users with
      | none => exact huc
      | some u => exact dkeys_nodup_dremove huc
  · rw [disconnect_users_eq]
    cases dlookup d s.connUsers with
    | none => exact hus
    | some uid =>
      dsimp only
      cases dlookup uid s.users with
      | none => exact hus
      | some u => exact dkeys_nodup_dremove hus
  · rw [disconnect_connUsers_eq, disconnect_userConns_eq, disconnect_users_eq]
    intro p hp
    have hpmem := mem_dremove hp
    have hpne := mem_dremove_ne hp
    obtain ⟨hb2a, hb2b⟩ := hB2 p hpmem
    cases hcu2 : dlookup d s.connUsers with
    | none => exact ⟨hb2a, hb2b⟩
    | some uid =>
      dsimp only
      cases hu2 : dlookup uid s.users with
      | none => exact ⟨hb2a, hb2b⟩
      | some u =>
        try rw [hu2]
        dsimp only
        have hpu : ¬ p.2 = uid := by
          intro he
          have := hB2 (d, uid) (dlookup_mem hcu2)
          rw [← he] at this
          rw [this.1] at hb2a
          cases hb2a
          exact hpne rfl
        constructor
        · rw [dremove_other hpu]
          exact hb2a
        · unfold dhasKey
          rw [dremove_other hpu]
          exact hb2b
  · rw [disconnect_connUsers_eq, disconnect_userConns_eq]
    intro p hp
    cases hcu2 : dlookup d s.connUsers with
    | none =>
      rw [hcu2] at hp
      have := hB3 p hp
      have hne : ¬ p.2 = d := by
        intro he
        rw [he, hcu2] at this
        cases this
      rw [dremove_other hne]
      exact hB3 p hp
    | some uid =>
      try dsimp only
      rw [hcu2] at hp
      try dsimp only at hp
      cases hu2 : dlookup uid s.users with
      | none =>
        exfalso
        have hk := (hB2 (d, uid) (dlookup_mem hcu2)).2
        unfold dhasKey at hk
        rw [hu2] at hk
        simp at hk
      | some u =>
        try rw [hu2]
        rw [hu2] at hp
        try dsimp only at hp
        have hpmem := mem_dremove hp
        have := hB3 p hpmem
        have hne : ¬ p.2 = d := by
          intro he
          rw [he, hcu2] at this
          cases this
          exact (mem_dremove_ne hp) rfl
        rw [dremove_other hne]
        exact this

theorem disconnect_keeps_removed (c d : Conn) (s : RoomState) (h : RemovedFrom c s) :
    RemovedFrom c (disconnect d s) := by
  obtain ⟨h1, h2, h3⟩ := h
  refine ⟨?_, ?_, ?_⟩
  · rw [disconnect_connections_eq]
    intro hmem
    exact h1 (List.mem_of_mem_erase hmem)
  · rw [disconnect_connUsers_eq]
    by_cases hcd : c = d
    · rw [hcd, dremove_self]
    · rw [dremove_other hcd]
      exact h2
  · rw [disconnect_userConns_eq]
    cases dlookup d s.connUsers with
    | none => exact h3
    | some uid =>
      dsimp only
      cases dlookup uid s.users with
      | none => exact h3
      | some u =>
        intro u2 hu2
        by_cases h4 : u2 = uid
        · rw [h4, dremove_self] at hu2
          cases hu2
        · rw [dremove_other h4] at hu2
          exact h3 u2 hu2

theorem sendLoop_out (fails : Conn → Bool) (skip : Option Conn) :
    ∀ (l : List Conn) (st : RoomState) (out : List Conn),
      (sendLoop fails skip l (st, out)).2 =
        out ++ l.filter (fun c => !(decide (skip = some c)) && !fails c) := by
  intro l
  induction l with
  | nil => intro st out; simp [sendLoop]
  | cons c rest ih =>
    intro st out
    unfold sendLoop
    by_cases hs : skip = some c
    · rw [if_pos hs, ih]
      rw [List.filter_cons]
      simp [hs]
    · rw [if_neg hs]
      by_cases hf : fails c = true
      · rw [if_pos hf, ih]
        rw [List.filter_cons]
        simp [hs, hf]
      · rw [if_neg hf, ih]
        rw [List.filter_cons]
        simp [hs, hf]

theorem sendLoop_inv (fails : Conn → Bool) (skip : Option Conn) :
    ∀ (l : List Conn) (st : RoomState) (out : List Conn),
      invC7 st → invC7 (sendLoop fails skip l (st, out)).1 := by
  intro l
  induction l with
  | nil => intro st out h; exact h
  | cons c rest ih =>
    intro st out h
    unfold sendLoop
    by_cases hs : skip = some c
    · rw [if_pos hs]; exact ih _ _ h
    · rw [if_neg hs]
      by_cases hf : fails c = true
      · rw [if_pos hf]; exact ih _ _ (disconnect_invC7 c st h)
      · rw [if_neg hf]; exact ih _ _ h

theorem sendLoop_keeps_removed (fails : Conn → Bool) (skip : Option Conn) :
    ∀ (l : List Conn) (st : RoomState) (out : List Conn) (c : Conn),
      RemovedFrom c st → RemovedFrom c (sendLoop fails skip l (st, out)).1 := by
  intro l
  induction l with
  | nil => intro st out c h; exact h
  | cons a rest ih =>
    intro st out c h
    unfold sendLoop
    by_cases hs : skip = some a
    · rw [if_pos hs]; exact ih _ _ _ h
    · rw [if_neg hs]
      by_cases hf : fails a = true
      · rw [if_pos hf]; exact ih _ _ _ (disconnect_keeps_removed c a st h)
      · rw [if_neg hf]; exact ih _ _ _ h

theorem sendLoop_removes (fails : Conn → Bool) :
    ∀ (l : List Conn) (st : RoomState) (out : List Conn) (c : Conn),
      invC7 st → c ∈ l → fails c = true →
      RemovedFrom c (sendLoop fails none l (st, out)).1 := by
  intro l
  induction l with
  | nil => intro st out c _ hc; simp at hc
  | cons a rest ih =>
    intro st out c hinv hc hf
    unfold sendLoop
    rw [if_neg (by simp : ¬ (none : Option Conn) = some a)]
    rcases List.mem_cons.mp hc with hca | hcr
    · subst hca
      rw [if_pos hf]
      exact sendLoop_keeps_removed fails none rest _ out c (disconnect_removes c st hinv)
    · by_cases hfa : fails a = true
      · rw [if_pos hfa]
        exact ih _ _ c (disconnect_invC7 a st hinv) hcr hf
      · rw [if_neg hfa]
        exact ih _ _ c hinv hcr hf

/-- C7: `broadcast` attempts delivery to every connection registered in the
room and delivers to exactly those whose send does not fail
(`broadcast_except` to all but the excluded one); a send failure on one
connection does not prevent delivery to the others, and every failing
connection is removed from all the room's registries as a side effect. -/
theorem c7_broadcast_isolation (fails : Conn → Bool) (s : RoomState) (hinv : invC7 s) :
    (broadcastRun fails s).2 = s.connections.filter (fun c => !fails c) ∧
    (∀ skip : Conn, (broadcastExceptRun fails skip s).2 =
      s.connections.filter (fun c => !(decide (c = skip)) && !fails c)) ∧
    (∀ c ∈ s.connections, fails c = true → RemovedFrom c (broadcastRun fails s).1) := by
  refine ⟨?_, ?_, ?_⟩
  · unfold broadcastRun
    rw [sendLoop_out]
    rw [List.nil_append]
    apply List.filter_congr
    intro c _
    simp
  · intro skip
    unfold broadcastExceptRun
    rw [sendLoop_out]
    rw [List.nil_append]
    apply List.filter_congr
    intro c _
    simp [eq_comm]
  · intro c hc hf
    exact sendLoop_removes fails _ s [] c hinv hc hf

def c7w_state : RoomState :=
  ⟨[1, 2, 3],
   [(1, "ua"), (2, "ub"), (3, "uc")],
   [("ua", ⟨"ua", "Anna", "#2563EB", none⟩), ("ub", ⟨"ub", "Berit", "#7C3AED", none⟩),
    ("uc", ⟨"uc", "Carl", "#DC2626", none⟩)],
   [],
   [("ua", 1), ("ub", 2), ("uc", 3)]⟩

def c7w_fails : Conn → Bool := fun c => c == 2

/-- C7 witness: in a three-member room where connection 2's send fails, the
other two still receive the broadcast and connection 2 is dropped from every
registry. -/
theorem c7_witness :
    (broadcastRun c7w_fails c7w_state).2 =
      c7w_state.connections.filter (fun c => !c7w_fails c) ∧
    RemovedFrom 2 (broadcastRun c7w_fails c7w_state).1 := by
  have h := c7_broadcast_isolation c7w_fails c7w_state (by decide)
  exact ⟨h.1, h.2.2 2 (by decide) (by decide)⟩

end GTApp



